import Mathlib

/-!
Lab 4: binary max-heap priority queue and undirected graph.

A shallow embedding of `src/Lab4-1.cpp` (class `PriorityQ`) and
`src/Lab4-2.cpp` (class `Graph`), followed by theorems about them.

Modelling conventions

* `std::vector<int>` is a `List Int`.  The stored integers are only copied and
  compared, never used in arithmetic, so every statement proved for all `Int`
  holds in particular for the 32-bit values of the program.
* Indices are `Nat`.  The index arithmetic `2 * i + 1`, `2 * i + 2` of the source
  is done on `int`; it agrees with the arithmetic on `Nat` as long as the vector
  has fewer than `2 ^ 30` elements, which is assumed throughout.
* A mutating member function is a function from the old state to the new one;
  the text written to `std::cout` is kept only where it carries stored values
  (`print`), as the list of the integers written.
* Recursion and loops of the source whose termination is not structural take a
  fuel argument; for each of them the unfolding equation of the source is proved
  (`heapifyUp_eq`, `heapifyDown_eq`, `printSift_eq`, `printLoop_succ`), so the
  fuel supplied is always enough.
* An access outside a vector is not defined by the source.  In `PriorityQ` every
  access is guarded; in `Graph`, `addEdge` returns `none` for such an access and
  the traversals return the fault `outOfRange`.
* The recursive traversals of `Graph` take the recursion depth as fuel and return
  the fault `outOfFuel` when it is used up; `dfsPreorder_trace`,
  `dfsPostorder_trace` and `dfsInorder_trace` show that with `numNodes` as fuel
  they return on every graph built by `addEdge`, from every known start label.
* `std::sort` on a vector of indices is the function `sort`; `sort_sorted_perm`
  shows that it gives the ascending rearrangement.
-/

set_option autoImplicit false

/-! ## Part 1: `PriorityQ` (src/Lab4-1.cpp) -/

/-- The class `PriorityQ`: its only data member is the vector `heap`. -/
structure PriorityQ where
  heap : List Int
deriving DecidableEq

namespace PriorityQ

/-- Reading `heap[i]`.  Every read of the source is guarded by a bounds test (or
is at an index below the size), so the default is never observed by the
operations below. -/
def elemAt (heap : List Int) (i : Nat) : Int :=
  heap.getD i 0

/-- The call `std::swap(heap[i], heap[j])`. -/
def swap (heap : List Int) (i j : Nat) : List Int :=
  (heap.set i (elemAt heap j)).set j (elemAt heap i)

/-- Helper `parent(i)`: `(i - 1) / 2`. -/
def parent (i : Nat) : Nat :=
  (i - 1) / 2

/-- Helper `leftChild(i)`: `2 * i + 1`. -/
def leftChild (i : Nat) : Nat :=
  2 * i + 1

/-- Helper `rightChild(i)`: `2 * i + 2`. -/
def rightChild (i : Nat) : Nat :=
  2 * i + 2

/-- The recursion of `heapifyUp(i)`, with a fuel argument bounding its depth. -/
def heapifyUpFuel : Nat → List Int → Nat → List Int
  | 0, heap, _ => heap
  | fuel + 1, heap, i =>
    if i ≠ 0 ∧ elemAt heap (parent i) < elemAt heap i then
      heapifyUpFuel fuel (swap heap i (parent i)) (parent i)
    else
      heap

/-- Member `heapifyUp(i)`.  Each call moves from `i` to `parent(i) < i`, so `i`
levels of recursion are enough. -/
def heapifyUp (heap : List Int) (i : Nat) : List Int :=
  heapifyUpFuel i heap i

/-- The index `largest` computed by the two tests of `heapifyDown(i)` (and of the
inner loop of `print`), for a vector whose size is read as `size`. -/
def largestOf (heap : List Int) (size i : Nat) : Nat :=
  let left := leftChild i
  let right := rightChild i
  let largest := i
  let largest := if left < size ∧ elemAt heap left > elemAt heap largest then left else largest
  let largest := if right < size ∧ elemAt heap right > elemAt heap largest then right else largest
  largest

/-- The recursion of `heapifyDown(i)`, with a fuel argument bounding its depth. -/
def heapifyDownFuel : Nat → List Int → Nat → List Int
  | 0, heap, _ => heap
  | fuel + 1, heap, i =>
    let largest := largestOf heap heap.length i
    if largest ≠ i then
      heapifyDownFuel fuel (swap heap i largest) largest
    else
      heap

/-- Member `heapifyDown(i)`.  Each call moves from `i` to a child index below
`size()`, so `size() - i` levels of recursion are enough. -/
def heapifyDown (heap : List Int) (i : Nat) : List Int :=
  heapifyDownFuel (heap.length - i) heap i

/-- Member `empty()`. -/
def empty (q : PriorityQ) : Bool :=
  q.heap.length == 0

/-- Member `size()`. -/
def size (q : PriorityQ) : Nat :=
  q.heap.length

/-- The exception `std::underflow_error` thrown inside `top` and `pop`. -/
inductive QError where
  | underflow
deriving DecidableEq

/-- The `try` block of `top()`. -/
def topBody (q : PriorityQ) : Except QError Int :=
  if q.empty then Except.error QError.underflow else Except.ok (elemAt q.heap 0)

/-- Member `top()`: the value returned and the state afterwards.  The handler
returns the sentinel `-1`. -/
def top (q : PriorityQ) : Int × PriorityQ :=
  match topBody q with
  | Except.ok v => (v, q)
  | Except.error _ => (-1, q)

/-- Member `push(value)`: `push_back`, then `heapifyUp(size() - 1)`. -/
def push (q : PriorityQ) (value : Int) : PriorityQ :=
  let heap := q.heap ++ [value]
  ⟨heapifyUp heap (heap.length - 1)⟩

/-- The `try` block of `pop()`: the exception is thrown before any write. -/
def popBody (q : PriorityQ) : Except QError PriorityQ :=
  if q.empty then Except.error QError.underflow
  else
    let heap := q.heap.set 0 (elemAt q.heap (q.heap.length - 1))
    let heap := heap.dropLast
    Except.ok ⟨heapifyDown heap 0⟩

/-- Member `pop()`: the handlers only write a message, the state is the one at
the throw. -/
def pop (q : PriorityQ) : PriorityQ :=
  match popBody q with
  | Except.ok q1 => q1
  | Except.error _ => q

/-- The inner loop `while (true)` of `print()`, on the local variables
`heapCopy`, `heapSize` and `i`; the fuel bounds the number of iterations. -/
def printSift : Nat → List Int → Nat → Nat → List Int
  | 0, heapCopy, _, _ => heapCopy
  | fuel + 1, heapCopy, heapSize, i =>
    let largest := largestOf heapCopy heapSize i
    if largest = i then
      heapCopy
    else
      printSift fuel (swap heapCopy i largest) heapSize largest

/-- The outer loop `while (!heapCopy.empty())` of `print()`: the integers written,
in order.  Each iteration removes one element, so the fuel is the size of the
copy. -/
def printLoop : Nat → List Int → Nat → List Int
  | 0, _, _ => []
  | fuel + 1, heapCopy, heapSize =>
    if heapCopy.length = 0 then []
    else
      let out := elemAt heapCopy 0
      let heapCopy := heapCopy.set 0 (elemAt heapCopy (heapCopy.length - 1))
      let heapCopy := heapCopy.dropLast
      let heapSize := heapSize - 1
      let heapCopy := printSift heapSize heapCopy heapSize 0
      out :: printLoop fuel heapCopy heapSize

/-- Member `print()`: the state afterwards and the integers written.  The loops
work on the local `heapCopy`; the member `heap` is not assigned. -/
def print (q : PriorityQ) : PriorityQ × List Int :=
  if q.empty then (q, [])
  else
    let heapCopy := q.heap
    let heapSize := heapCopy.length
    (q, printLoop heapCopy.length heapCopy heapSize)

/-- A call of one of the two mutating public members. -/
inductive Op where
  | push (value : Int)
  | pop
deriving DecidableEq

/-- One call applied to a queue. -/
def step (q : PriorityQ) : Op → PriorityQ
  | Op.push value => q.push value
  | Op.pop => q.pop

/-- A sequence of calls applied in order. -/
def run (q : PriorityQ) (ops : List Op) : PriorityQ :=
  ops.foldl step q

/-- A newly created queue. -/
def new : PriorityQ :=
  ⟨[]⟩

/-- Pushing the elements of a list in order, as the first loop of `main`. -/
def pushAll (q : PriorityQ) (xs : List Int) : PriorityQ :=
  xs.foldl push q

/-- Recording `top()` and calling `pop()`, `n` times: the values recorded and the
final state. -/
def drain : Nat → PriorityQ → List Int × PriorityQ
  | 0, q => ([], q)
  | n + 1, q =>
    let t := (q.top).1
    let r := drain n ((q.top).2.pop)
    (t :: r.1, r.2)

/-- The max-heap invariant on a vector. -/
def IsMaxHeap (heap : List Int) : Prop :=
  ∀ i, 0 < i → i < heap.length → elemAt heap i ≤ elemAt heap (parent i)

/-- The invariant of `heapifyUp(i)`: the max-heap property holds at every index
except possibly between `i` and its parent, and the children of `i` are bounded
by the parent of `i`. -/
def HeapExceptUp (heap : List Int) (i : Nat) : Prop :=
  (∀ k, 0 < k → k < heap.length → k ≠ i → elemAt heap k ≤ elemAt heap (parent k)) ∧
  (∀ k, 0 < k → k < heap.length → parent k = i → i ≠ 0 → elemAt heap k ≤ elemAt heap (parent i))

/-- The invariant of `heapifyDown(i)`: the max-heap property holds at every index
except possibly between `i` and its children, and the children of `i` are
bounded by the parent of `i`. -/
def HeapExceptDown (heap : List Int) (i : Nat) : Prop :=
  (∀ k, 0 < k → k < heap.length → parent k ≠ i → elemAt heap k ≤ elemAt heap (parent k)) ∧
  (∀ k, 0 < k → k < heap.length → parent k = i → i ≠ 0 → elemAt heap k ≤ elemAt heap (parent i))

end PriorityQ

/-! ## Part 2: `Graph` (src/Lab4-2.cpp) -/

/-- The class `Graph`.  Neighbour indices are stored as `int` in the source; they
are results of `getNodeIndex`, hence never negative, and are `Nat` here. -/
structure Graph where
  numNodes : Nat
  adjList : List (List Nat)
  adjMatrix : List (List Int)
  nodes : List Int
deriving DecidableEq

namespace Graph

/-- Constructor `Graph(nodes)`: `adjList.resize(numNodes)` and
`adjMatrix.resize(numNodes, vector<int>(numNodes, 0))` on empty vectors. -/
def new (nodes : List Int) : Graph :=
  { numNodes := nodes.length
    adjList := List.replicate nodes.length []
    adjMatrix := List.replicate nodes.length (List.replicate nodes.length 0)
    nodes := nodes }

/-- The position found by `std::find(first, last, value)`, counted from `first`:
that of the first element equal to `value`, or the length of the range. -/
def find : List Int → Int → Nat
  | [], _ => 0
  | x :: rest, value => if x = value then 0 else find rest value + 1

/-- Member `getNodeIndex(node)`. -/
def getNodeIndex (g : Graph) (node : Int) : Nat :=
  find g.nodes node

/-- Reading the inner vector `rows[i]` of a vector of vectors. -/
def rowAt {α : Type} (rows : List (List α)) (i : Nat) : List α :=
  rows.getD i []

/-- Reading the element `xs[i]` of a vector of integers. -/
def intAt (xs : List Int) (i : Nat) : Int :=
  xs.getD i 0

/-- The statement `adjList[idx].push_back(value)`; `none` stands for the access
outside the vector, which the source does not define. -/
def pushBackAt (adjList : List (List Nat)) (idx value : Nat) : Option (List (List Nat)) :=
  if idx < adjList.length then
    some (adjList.set idx (rowAt adjList idx ++ [value]))
  else
    none

/-- The statement `adjMatrix[i][j] = value`; `none` stands for an access outside
the matrix. -/
def setEntry (adjMatrix : List (List Int)) (i j : Nat) (value : Int) :
    Option (List (List Int)) :=
  if i < adjMatrix.length ∧ j < (rowAt adjMatrix i).length then
    some (adjMatrix.set i ((rowAt adjMatrix i).set j value))
  else
    none

/-- Member `addEdge(u, v)`. -/
def addEdge (g : Graph) (u v : Int) : Option Graph := do
  let u_idx := g.getNodeIndex u
  let v_idx := g.getNodeIndex v
  let adjList ← pushBackAt g.adjList u_idx v_idx
  let adjList ← pushBackAt adjList v_idx u_idx
  let adjMatrix ← setEntry g.adjMatrix u_idx v_idx 1
  let adjMatrix ← setEntry adjMatrix v_idx u_idx 1
  pure { g with adjList := adjList, adjMatrix := adjMatrix }

/-- A sequence of `addEdge` calls, in order. -/
def addEdges (g : Graph) : List (Int × Int) → Option Graph
  | [] => some g
  | (u, v) :: rest => (g.addEdge u v).bind fun g1 => addEdges g1 rest

/-- Reading `adjMatrix[i][j]`. -/
def entry (g : Graph) (i j : Nat) : Int :=
  intAt (rowAt g.adjMatrix i) j

/-- Reading `adjList[i]`. -/
def neighbors (g : Graph) (i : Nat) : List Nat :=
  rowAt g.adjList i

/-- The shape fixed by the constructor: `numNodes` is the number of labels, there
are `numNodes` adjacency lists and the matrix is `numNodes` by `numNodes`. -/
def WellShaped (g : Graph) : Prop :=
  g.numNodes = g.nodes.length ∧ g.adjList.length = g.nodes.length ∧
    g.adjMatrix.length = g.nodes.length ∧
    ∀ i, i < g.nodes.length → (rowAt g.adjMatrix i).length = g.nodes.length

/-- The two representations agree, the matrix is binary and symmetric. -/
def Consistent (g : Graph) : Prop :=
  ∀ i j, i < g.nodes.length → j < g.nodes.length →
    (g.entry i j = 1 ↔ j ∈ g.neighbors i) ∧ (g.entry i j = 0 ∨ g.entry i j = 1) ∧
      g.entry i j = g.entry j i

/-- The graph built by `main`. -/
def example1 : Option Graph :=
  addEdges (new [0, 1, 2, 3, 4, 5]) [(0, 1), (0, 2), (1, 3), (1, 4), (2, 5)]

/-- How a traversal can fail to return in the model: an access outside a vector
(not defined by the source), or the recursion depth allowed by the model is
used up. -/
inductive Fault where
  | outOfRange
  | outOfFuel
deriving DecidableEq

/-- The mutable data of one traversal: the vector `visited`, passed by reference,
and the labels written to `cout` so far. -/
structure DfsState where
  visited : List Bool
  out : List Int
deriving DecidableEq

/-- Reading `xs[i]`, with the access outside the vector made explicit. -/
def readAt {α : Type} (xs : List α) (i : Nat) : Except Fault α :=
  match xs[i]? with
  | some x => Except.ok x
  | none => Except.error Fault.outOfRange

/-- The statement `visited[i] = true`. -/
def markVisited (visited : List Bool) (i : Nat) : Except Fault (List Bool) :=
  if i < visited.length then Except.ok (visited.set i true) else Except.error Fault.outOfRange

/-- Member `dfsPreorderUtil(nodeIdx, visited)`; the fuel bounds the depth of the
recursion. -/
def dfsPreorderUtil (g : Graph) : Nat → Nat → DfsState → Except Fault DfsState
  | 0, _, _ => Except.error Fault.outOfFuel
  | fuel + 1, nodeIdx, s => do
    let visited ← markVisited s.visited nodeIdx
    let label ← readAt g.nodes nodeIdx
    let out := s.out ++ [label]
    let row ← readAt g.adjList nodeIdx
    row.foldlM (fun s neighbor => do
      let seen ← readAt s.visited neighbor
      if !seen then dfsPreorderUtil g fuel neighbor s else pure s) ⟨visited, out⟩

/-- Member `dfsPreorder(startNode)`: the labels written.  Every nested call marks
a node that was not marked, so `numNodes` levels of recursion are enough. -/
def dfsPreorder (g : Graph) (startNode : Int) : Except Fault (List Int) := do
  let visited := List.replicate g.numNodes false
  let s ← dfsPreorderUtil g g.numNodes (g.getNodeIndex startNode) ⟨visited, []⟩
  pure s.out

/-- Member `dfsPostorderUtil(nodeIdx, visited)`. -/
def dfsPostorderUtil (g : Graph) : Nat → Nat → DfsState → Except Fault DfsState
  | 0, _, _ => Except.error Fault.outOfFuel
  | fuel + 1, nodeIdx, s => do
    let visited ← markVisited s.visited nodeIdx
    let row ← readAt g.adjList nodeIdx
    let s ← row.foldlM (fun s neighbor => do
      let seen ← readAt s.visited neighbor
      if !seen then dfsPostorderUtil g fuel neighbor s else pure s) ⟨visited, s.out⟩
    let label ← readAt g.nodes nodeIdx
    pure ⟨s.visited, s.out ++ [label]⟩

/-- Member `dfsPostorder(startNode)`: the labels written. -/
def dfsPostorder (g : Graph) (startNode : Int) : Except Fault (List Int) := do
  let visited := List.replicate g.numNodes false
  let s ← dfsPostorderUtil g g.numNodes (g.getNodeIndex startNode) ⟨visited, []⟩
  pure s.out

/-- The call `sort(neighbors.begin(), neighbors.end())`: the ascending
rearrangement of a vector of indices. -/
def sort (xs : List Nat) : List Nat :=
  xs.insertionSort (· ≤ ·)

/-- Member `dfsInorderUtil(nodeIdx, visited)`.  The two `for` loops run over the
positions `0 .. mid - 1` and `mid .. size - 1` of the sorted copy. -/
def dfsInorderUtil (g : Graph) : Nat → Nat → DfsState → Except Fault DfsState
  | 0, _, _ => Except.error Fault.outOfFuel
  | fuel + 1, nodeIdx, s => do
    let visited ← markVisited s.visited nodeIdx
    let row ← readAt g.adjList nodeIdx
    let neighbors := sort row
    let mid := neighbors.length / 2
    let s ← (List.range' 0 mid).foldlM (fun s i => do
      let neighbor ← readAt neighbors i
      let seen ← readAt s.visited neighbor
      if !seen then dfsInorderUtil g fuel neighbor s else pure s) ⟨visited, s.out⟩
    let label ← readAt g.nodes nodeIdx
    let s := DfsState.mk s.visited (s.out ++ [label])
    (List.range' mid (neighbors.length - mid)).foldlM (fun s i => do
      let neighbor ← readAt neighbors i
      let seen ← readAt s.visited neighbor
      if !seen then dfsInorderUtil g fuel neighbor s else pure s) s

/-- Member `dfsInorder(startNode)`: the labels written. -/
def dfsInorder (g : Graph) (startNode : Int) : Except Fault (List Int) := do
  let visited := List.replicate g.numNodes false
  let s ← dfsInorderUtil g g.numNodes (g.getNodeIndex startNode) ⟨visited, []⟩
  pure s.out

/-- The body of the loops of the three traversals: recurse into a neighbour that
is not marked. -/
def visit (util : Nat → DfsState → Except Fault DfsState) (s : DfsState) (neighbor : Nat) :
    Except Fault DfsState := do
  let seen ← readAt s.visited neighbor
  if !seen then util neighbor s else pure s

/-- A traversal scheme that has the three traversals as instances, used to prove
their common properties once: mark the node, recurse into the unmarked
neighbours listed by `before`, write the label, recurse into the unmarked
neighbours listed by `after`. -/
def dfsScheme (g : Graph) (before after : List Nat → List Nat) :
    Nat → Nat → DfsState → Except Fault DfsState
  | 0, _, _ => Except.error Fault.outOfFuel
  | fuel + 1, nodeIdx, s => do
    let visited ← markVisited s.visited nodeIdx
    let row ← readAt g.adjList nodeIdx
    let label ← readAt g.nodes nodeIdx
    let s ← (before row).foldlM (fun s neighbor => do
      let seen ← readAt s.visited neighbor
      if !seen then dfsScheme g before after fuel neighbor s else pure s) ⟨visited, s.out⟩
    (after row).foldlM (fun s neighbor => do
      let seen ← readAt s.visited neighbor
      if !seen then dfsScheme g before after fuel neighbor s else pure s)
      ⟨s.visited, s.out ++ [label]⟩

/-- The first `mid` entries of the sorted neighbour list. -/
def lowerHalf (row : List Nat) : List Nat :=
  (sort row).take ((sort row).length / 2)

/-- The remaining entries of the sorted neighbour list. -/
def upperHalf (row : List Nat) : List Nat :=
  (sort row).drop ((sort row).length / 2)

/-- The label `nodes[i]` of the node with index `i`. -/
def label (g : Graph) (i : Nat) : Int :=
  intAt g.nodes i

/-- There is an edge from node `i` to node `j`: `j` is listed in `adjList[i]`. -/
def Edge (g : Graph) (i j : Nat) : Prop :=
  j ∈ g.neighbors i

/-- Node `j` is reachable from node `i` along edges. -/
def Reachable (g : Graph) (i j : Nat) : Prop :=
  Relation.ReflTransGen g.Edge i j

/-- Every entry of every adjacency list is the index of a node. -/
def IndexSafe (g : Graph) : Prop :=
  ∀ i, i < g.nodes.length → ∀ k ∈ g.neighbors i, k < g.nodes.length

/-- The vector `visited` grows from `vis` to `vis1` by marking exactly the nodes
of `trace`, each of them unmarked before and listed once. -/
def Marks (vis vis1 : List Bool) (trace : List Nat) : Prop :=
  vis1.length = vis.length ∧
    (∀ i, vis1[i]? = some true ↔ (vis[i]? = some true ∨ i ∈ trace)) ∧
    trace.Nodup ∧ (∀ i ∈ trace, vis[i]? = some false) ∧
    vis1.count false + trace.length = vis.count false

/-- Every neighbour of every node of `trace` is marked in `vis`. -/
def Closed (g : Graph) (trace : List Nat) (vis : List Bool) : Prop :=
  ∀ i ∈ trace, ∀ j ∈ g.neighbors i, vis[j]? = some true

/-- What a recursive traversal function does when called, with enough fuel, on
an unmarked node `v` of a well-shaped graph: it returns, having written the
labels of a list `trace` of nodes that it has marked, all reachable from `v`,
with `v` among them and all their neighbours marked. -/
def UtilSpec (g : Graph) (util : Nat → DfsState → Except Fault DfsState) (bound : Nat) : Prop :=
  ∀ (v : Nat) (vis : List Bool) (out : List Int), vis.length = g.nodes.length →
    v < g.nodes.length → vis[v]? = some false → vis.count false ≤ bound →
    ∃ vis1 trace, util v ⟨vis, out⟩ = Except.ok ⟨vis1, out ++ trace.map g.label⟩ ∧
      Marks vis vis1 trace ∧ Closed g trace vis1 ∧ v ∈ trace ∧ ∀ i ∈ trace, g.Reachable v i

/-- Every entry of every adjacency list is the index that `getNodeIndex` gives to
its own label: the first position of that label in `nodes`. -/
def FirstMatch (g : Graph) : Prop :=
  ∀ i, ∀ k ∈ g.neighbors i, find g.nodes (g.label k) = k

/-- The graph on the labels 10, 20, 30, 40, 50 after the calls `addEdge(10, 20)`,
`addEdge(20, 30)`, `addEdge(30, 10)`, `addEdge(20, 20)`, `addEdge(10, 20)`,
`addEdge(40, 50)`: a cycle, a self-loop, a repeated edge and a second component. -/
def example2 : Graph :=
  { numNodes := 5
    adjList := [[1, 2, 1], [0, 2, 1, 1, 0], [1, 0], [4], [3]]
    adjMatrix := [[0, 1, 1, 0, 0], [1, 1, 1, 0, 0], [1, 1, 0, 0, 0], [0, 0, 0, 0, 1],
      [0, 0, 0, 1, 0]]
    nodes := [10, 20, 30, 40, 50] }

/-- The reference definition of the simulated inorder traversal, written after
the words of the specification and not after the source: at a node, mark it
visited; sort a copy of its neighbour list ascending by index; let `mid` be half
the count, rounded down; recurse, in ascending order, into every still unvisited
neighbour among the first `mid` entries; emit the label of the node; recurse, in
ascending order, into every still unvisited neighbour among the remaining
entries.  The result is `none` when the depth allowed by `fuel` is used up. -/
def inorderSpecUtil (g : Graph) : Nat → Nat → DfsState → Option DfsState
  | 0, _, _ => none
  | fuel + 1, node, s =>
    let marked : DfsState := ⟨s.visited.set node true, s.out⟩
    let sorted := sort (g.neighbors node)
    let mid := sorted.length / 2
    let lower := sorted.take mid
    let upper := sorted.drop mid
    let recurse := fun (st : DfsState) (n : Nat) =>
      if st.visited.getD n false then some st else inorderSpecUtil g fuel n st
    (lower.foldlM recurse marked).bind fun st =>
      upper.foldlM recurse ⟨st.visited, st.out ++ [g.label node]⟩

/-- The reference traversal from a start label, all nodes unvisited at first. -/
def dfsInorderSpec (g : Graph) (startNode : Int) : Option (List Int) :=
  (inorderSpecUtil g g.numNodes (g.getNodeIndex startNode)
    ⟨List.replicate g.numNodes false, []⟩).map fun st => st.out

end Graph

/-! ## Theorems about `PriorityQ` -/

namespace PriorityQ

/-! ### Reading and writing a vector -/

theorem elemAt_set (heap : List Int) (i j : Nat) (v : Int) :
    elemAt (heap.set i v) j = if i = j ∧ i < heap.length then v else elemAt heap j := by
  unfold elemAt
  simp only [List.getD_eq_getElem?_getD, List.getElem?_set]
  by_cases hij : i = j
  · subst hij
    by_cases hi : i < heap.length
    · simp [hi]
    · simp [hi, List.getElem?_eq_none (Nat.le_of_not_lt hi)]
  · simp [hij]

theorem elemAt_of_le (heap : List Int) (i : Nat) (h : heap.length ≤ i) : elemAt heap i = 0 := by
  unfold elemAt
  simp [List.getElem?_eq_none h]

theorem elemAt_mem (heap : List Int) (i : Nat) (h : i < heap.length) : elemAt heap i ∈ heap := by
  unfold elemAt
  simp [List.getElem?_eq_getElem h]

theorem exists_elemAt_of_mem (heap : List Int) (x : Int) (h : x ∈ heap) :
    ∃ i, i < heap.length ∧ elemAt heap i = x := by
  obtain ⟨i, hi, hx⟩ := List.getElem_of_mem h
  refine ⟨i, hi, ?_⟩
  unfold elemAt
  simp [List.getElem?_eq_getElem hi, hx]

theorem length_swap (heap : List Int) (i j : Nat) : (swap heap i j).length = heap.length := by
  simp [swap]

theorem elemAt_swap (heap : List Int) (i j k : Nat) (hi : i < heap.length)
    (hj : j < heap.length) :
    elemAt (swap heap i j) k =
      if k = j then elemAt heap i else if k = i then elemAt heap j else elemAt heap k := by
  unfold swap
  rw [elemAt_set, elemAt_set, List.length_set]
  by_cases hkj : k = j
  · subst hkj
    simp [hj]
  · have h1 : ¬ j = k := fun h => hkj h.symm
    by_cases hki : k = i
    · subst hki
      simp [hi, h1, hkj]
    · have h2 : ¬ i = k := fun h => hki h.symm
      simp [h1, h2, hkj, hki]

theorem count_set_add (heap : List Int) (i : Nat) (v a : Int) (hi : i < heap.length) :
    (heap.set i v).count a + (if elemAt heap i = a then 1 else 0)
      = heap.count a + (if v = a then 1 else 0) := by
  have h1 := List.count_set v a heap i hi
  have h2 : (if heap[i] = a then 1 else 0) ≤ heap.count a := by
    split
    · rename_i h
      have : a ∈ heap := h ▸ List.getElem_mem hi
      exact List.count_pos_iff.mpr this
    · exact Nat.zero_le _
  have h3 : elemAt heap i = heap[i] := by
    unfold elemAt
    simp [List.getElem?_eq_getElem hi]
  simp only [beq_iff_eq] at h1
  rw [h3, h1]
  omega

theorem swap_perm (heap : List Int) (i j : Nat) (hi : i < heap.length) (hj : j < heap.length) :
    (swap heap i j).Perm heap := by
  rw [List.perm_iff_count]
  intro a
  unfold swap
  have h1 := count_set_add heap i (elemAt heap j) a hi
  have h2 := count_set_add (heap.set i (elemAt heap j)) j (elemAt heap i) a (by simpa using hj)
  rw [elemAt_set] at h2
  by_cases hij : i = j
  · subst hij
    simp only [hi, and_self, if_true] at h2
    omega
  · simp only [hij, false_and, if_false] at h2
    omega

/-! ### `heapifyUp` -/

theorem parent_lt (i : Nat) (h : i ≠ 0) : parent i < i := by
  unfold parent; omega

theorem heapifyUpFuel_fuel (fuel1 : Nat) : ∀ (fuel2 : Nat) (heap : List Int) (i : Nat),
    i ≤ fuel1 → i ≤ fuel2 → heapifyUpFuel fuel1 heap i = heapifyUpFuel fuel2 heap i := by
  induction fuel1 with
  | zero =>
    intro fuel2 heap i h1 _
    have hi : i = 0 := by omega
    subst hi
    cases fuel2 <;> simp [heapifyUpFuel]
  | succ n ih =>
    intro fuel2 heap i h1 h2
    cases fuel2 with
    | zero =>
      have hi : i = 0 := by omega
      subst hi
      simp [heapifyUpFuel]
    | succ m =>
      simp only [heapifyUpFuel]
      split
      · rename_i hc
        have := parent_lt i hc.1
        exact ih m _ _ (by omega) (by omega)
      · rfl

/-- The unfolding equation of `heapifyUp`: the body of the source function. -/
theorem heapifyUp_eq (heap : List Int) (i : Nat) :
    heapifyUp heap i =
      if i ≠ 0 ∧ elemAt heap (parent i) < elemAt heap i then
        heapifyUp (swap heap i (parent i)) (parent i)
      else heap := by
  unfold heapifyUp
  cases i with
  | zero => simp [heapifyUpFuel]
  | succ k =>
    simp only [heapifyUpFuel]
    split
    · rename_i hc
      have := parent_lt (k + 1) hc.1
      exact heapifyUpFuel_fuel _ _ _ _ (by omega) (Nat.le_refl _)
    · rfl

theorem heapifyUp_length (heap : List Int) (i : Nat) : (heapifyUp heap i).length = heap.length := by
  induction i using Nat.strong_induction_on generalizing heap with
  | _ i ih =>
    rw [heapifyUp_eq]
    split
    · rename_i hc
      rw [ih _ (parent_lt i hc.1), length_swap]
    · rfl

theorem heapifyUp_perm (heap : List Int) (i : Nat) (hi : i < heap.length) :
    (heapifyUp heap i).Perm heap := by
  induction i using Nat.strong_induction_on generalizing heap with
  | _ i ih =>
    rw [heapifyUp_eq]
    split
    · rename_i hc
      have hp := parent_lt i hc.1
      exact (ih _ hp _ (by rw [length_swap]; omega)).trans (swap_perm heap i _ hi (by omega))
    · exact List.Perm.refl _

theorem heapifyUp_isMaxHeap (heap : List Int) (i : Nat) (hi : i < heap.length)
    (hinv : HeapExceptUp heap i) : IsMaxHeap (heapifyUp heap i) := by
  induction i using Nat.strong_induction_on generalizing heap with
  | _ i ih =>
    rw [heapifyUp_eq]
    obtain ⟨h1, h2⟩ := hinv
    split
    · rename_i hc
      obtain ⟨hi0, hlt⟩ := hc
      have hp := parent_lt i hi0
      have hpn : parent i < heap.length := by omega
      have hs := fun k => elemAt_swap heap i (parent i) k hi hpn
      apply ih _ hp _ (by rw [length_swap]; omega)
      constructor
      · intro k hk0 hkn hkp
        rw [length_swap] at hkn
        rw [hs k, hs (parent k)]
        have hpk := parent_lt k (by omega)
        by_cases hki : k = i
        · subst hki
          simp [hkp, Nat.ne_of_gt hp]
          omega
        · have hkk : parent k ≠ k := by omega
          simp only [hkp, hki, if_false]
          by_cases hpp : parent k = parent i
          · simp only [hpp, if_true]
            have := h1 k hk0 hkn hki
            rw [hpp] at this
            omega
          · simp only [hpp, if_false]
            by_cases hpi : parent k = i
            · simp only [hpi, if_true]
              exact h2 k hk0 hkn hpi hi0
            · simp only [hpi, if_false]
              exact h1 k hk0 hkn hki
      · intro k hk0 hkn hkp hp0
        rw [length_swap] at hkn
        rw [hs k, hs (parent (parent i))]
        have hpp := parent_lt (parent i) hp0
        have hpk := parent_lt k (by omega)
        have e1 : parent (parent i) ≠ parent i := by omega
        have e2 : parent (parent i) ≠ i := by omega
        have e3 : k ≠ parent i := by omega
        simp only [e1, e2, e3, if_false]
        have hP := h1 (parent i) (by omega) hpn (by omega)
        by_cases hki : k = i
        · simp only [hki, if_true]
          exact hP
        · simp only [hki, if_false]
          have := h1 k hk0 hkn hki
          rw [hkp] at this
          omega
    · rename_i hc
      intro k hk0 hkn
      by_cases hki : k = i
      · subst hki
        have : ¬ elemAt heap (parent k) < elemAt heap k := fun h => hc ⟨by omega, h⟩
        omega
      · exact h1 k hk0 hkn hki

/-! ### `heapifyDown` -/

theorem largestOf_spec (heap : List Int) (n i : Nat) :
    (largestOf heap n i = i ∨ largestOf heap n i = leftChild i ∨
        largestOf heap n i = rightChild i) ∧
    (largestOf heap n i ≠ i →
        largestOf heap n i < n ∧ elemAt heap i < elemAt heap (largestOf heap n i)) ∧
    (leftChild i < n → elemAt heap (leftChild i) ≤ elemAt heap (largestOf heap n i)) ∧
    (rightChild i < n → elemAt heap (rightChild i) ≤ elemAt heap (largestOf heap n i)) := by
  unfold largestOf leftChild rightChild
  dsimp only
  split_ifs <;> refine ⟨?_, ?_, ?_, ?_⟩ <;> omega

theorem largestOf_lt (heap : List Int) (n i : Nat) (h : largestOf heap n i ≠ i) :
    i < largestOf heap n i ∧ largestOf heap n i < n := by
  have hs := largestOf_spec heap n i
  unfold leftChild rightChild at hs
  have := hs.2.1 h
  omega

theorem largestOf_of_le (heap : List Int) (n i : Nat) (h : n ≤ i) : largestOf heap n i = i := by
  by_contra hc
  have := largestOf_lt heap n i hc
  omega

theorem heapifyDownFuel_length (fuel : Nat) : ∀ (heap : List Int) (i : Nat),
    (heapifyDownFuel fuel heap i).length = heap.length := by
  induction fuel with
  | zero => intro heap i; rfl
  | succ n ih =>
    intro heap i
    simp only [heapifyDownFuel]
    split
    · rw [ih, length_swap]
    · rfl

theorem heapifyDownFuel_perm (fuel : Nat) : ∀ (heap : List Int) (i : Nat),
    (heapifyDownFuel fuel heap i).Perm heap := by
  induction fuel with
  | zero => intro heap i; exact List.Perm.refl _
  | succ n ih =>
    intro heap i
    simp only [heapifyDownFuel]
    split
    · rename_i hc
      have := largestOf_lt heap heap.length i hc
      exact (ih _ _).trans (swap_perm heap i _ (by omega) (by omega))
    · exact List.Perm.refl _

theorem heapifyDownFuel_fuel (fuel1 : Nat) : ∀ (fuel2 : Nat) (heap : List Int) (i : Nat),
    heap.length - i ≤ fuel1 → heap.length - i ≤ fuel2 →
      heapifyDownFuel fuel1 heap i = heapifyDownFuel fuel2 heap i := by
  induction fuel1 with
  | zero =>
    intro fuel2 heap i h1 _
    have hl := largestOf_of_le heap heap.length i (by omega)
    cases fuel2 <;> simp [heapifyDownFuel, hl]
  | succ n ih =>
    intro fuel2 heap i h1 h2
    cases fuel2 with
    | zero =>
      have hl := largestOf_of_le heap heap.length i (by omega)
      simp [heapifyDownFuel, hl]
    | succ m =>
      simp only [heapifyDownFuel]
      split
      · rename_i hc
        have := largestOf_lt heap heap.length i hc
        exact ih m _ _ (by rw [length_swap]; omega) (by rw [length_swap]; omega)
      · rfl

/-- The unfolding equation of `heapifyDown`: the body of the source function. -/
theorem heapifyDown_eq (heap : List Int) (i : Nat) :
    heapifyDown heap i =
      if largestOf heap heap.length i ≠ i then
        heapifyDown (swap heap i (largestOf heap heap.length i)) (largestOf heap heap.length i)
      else heap := by
  unfold heapifyDown
  by_cases hc : largestOf heap heap.length i ≠ i
  · have hl := largestOf_lt heap heap.length i hc
    rw [if_pos hc]
    obtain ⟨m, hm⟩ : ∃ m, heap.length - i = m + 1 := ⟨heap.length - i - 1, by omega⟩
    rw [hm]
    simp only [heapifyDownFuel, if_pos hc]
    exact heapifyDownFuel_fuel _ _ _ _ (by rw [length_swap]; omega) (Nat.le_refl _)
  · rw [if_neg hc]
    cases heap.length - i <;> simp [heapifyDownFuel, hc]

theorem heapifyDownFuel_isMaxHeap (fuel : Nat) : ∀ (heap : List Int) (i : Nat),
    heap.length - i ≤ fuel → HeapExceptDown heap i → IsMaxHeap (heapifyDownFuel fuel heap i) := by
  induction fuel with
  | zero =>
    intro heap i hf hinv k hk0 hkn
    have hkn : k < heap.length := hkn
    have := parent_lt k (by omega)
    exact hinv.1 k hk0 hkn (by omega)
  | succ n ih =>
    intro heap i hf hinv
    obtain ⟨h1, h2⟩ := hinv
    obtain ⟨s1, s2, s3, s4⟩ := largestOf_spec heap heap.length i
    simp only [heapifyDownFuel]
    split
    · rename_i hc
      obtain ⟨hil, hln⟩ := largestOf_lt heap heap.length i hc
      obtain ⟨-, hgt⟩ := s2 hc
      generalize largestOf heap heap.length i = l at *
      have hs := fun k => elemAt_swap heap i l k (by omega) hln
      have hpl : parent l = i := by
        unfold parent; unfold leftChild rightChild at s1; omega
      apply ih _ _ (by rw [length_swap]; omega)
      constructor
      · intro k hk0 hkn hkp
        rw [length_swap] at hkn
        rw [hs k, hs (parent k)]
        have hpk := parent_lt k (by omega)
        simp only [hkp, if_false]
        by_cases hkl : k = l
        · subst hkl
          simp only [if_true, hpl]
          omega
        · simp only [hkl, if_false]
          by_cases hki : k = i
          · subst hki
            have e1 : parent k ≠ k := by omega
            simp only [if_true, e1, if_false]
            exact h2 l (by omega) hln hpl (by omega)
          · simp only [hki, if_false]
            by_cases hpi : parent k = i
            · simp only [hpi, if_true]
              have hk : k = leftChild i ∨ k = rightChild i := by
                unfold parent at hpi; unfold leftChild rightChild; omega
              rcases hk with hk | hk
              · rw [hk]; exact s3 (hk ▸ hkn)
              · rw [hk]; exact s4 (hk ▸ hkn)
            · simp only [hpi, if_false]
              exact h1 k hk0 hkn hpi
      · intro k hk0 hkn hkp _
        rw [length_swap] at hkn
        rw [hs k, hs (parent l)]
        have hpk := parent_lt k (by omega)
        have e1 : k ≠ l := by omega
        have e2 : k ≠ i := by omega
        have e3 : i ≠ l := by omega
        simp only [e1, e2, e3, hpl, if_false, if_true]
        have := h1 k hk0 hkn (by omega)
        rw [hkp] at this
        exact this
    · rename_i hc
      have hc : largestOf heap heap.length i = i := by
        by_contra h; exact hc h
      rw [hc] at s3 s4
      intro k hk0 hkn
      by_cases hpi : parent k = i
      · have hk : k = leftChild i ∨ k = rightChild i := by
          unfold parent at hpi; unfold leftChild rightChild; omega
        rw [hpi]
        rcases hk with hk | hk
        · rw [hk]; exact s3 (hk ▸ hkn)
        · rw [hk]; exact s4 (hk ▸ hkn)
      · exact h1 k hk0 hkn hpi

theorem heapifyDown_isMaxHeap (heap : List Int) (i : Nat) (hinv : HeapExceptDown heap i) :
    IsMaxHeap (heapifyDown heap i) :=
  heapifyDownFuel_isMaxHeap _ heap i (Nat.le_refl _) hinv

/-! ### `push` and `pop` -/

theorem elemAt_append_left (heap : List Int) (v : Int) (k : Nat) (hk : k < heap.length) :
    elemAt (heap ++ [v]) k = elemAt heap k := by
  unfold elemAt
  simp [List.getElem?_append_left hk]

theorem push_length (q : PriorityQ) (v : Int) : (q.push v).heap.length = q.heap.length + 1 := by
  simp [push, heapifyUp_length]

theorem push_perm (q : PriorityQ) (v : Int) : (q.push v).heap.Perm (v :: q.heap) := by
  unfold push
  refine (heapifyUp_perm _ _ (by simp)).trans ?_
  exact List.perm_append_singleton v q.heap

theorem push_isMaxHeap (q : PriorityQ) (v : Int) (h : IsMaxHeap q.heap) :
    IsMaxHeap (q.push v).heap := by
  unfold push
  apply heapifyUp_isMaxHeap _ _ (by simp)
  simp only [List.length_append, List.length_singleton, Nat.add_sub_cancel]
  constructor
  · intro k hk0 hkn hk
    simp only [List.length_append, List.length_singleton] at hkn
    have hk1 : k < q.heap.length := by omega
    have := parent_lt k (by omega)
    rw [elemAt_append_left _ _ _ hk1, elemAt_append_left _ _ _ (by omega)]
    exact h k hk0 hk1
  · intro k hk0 hkn hk
    simp only [List.length_append, List.length_singleton] at hkn
    have := parent_lt k (by omega)
    omega

theorem elemAt_dropLast (heap : List Int) (k : Nat) (hk : k < heap.length - 1) :
    elemAt heap.dropLast k = elemAt heap k := by
  unfold elemAt
  simp only [List.getD_eq_getElem?_getD, List.getElem?_dropLast, if_pos hk]

theorem cons_removeRoot_perm (heap : List Int) (h : heap ≠ []) :
    (elemAt heap 0 :: (heap.set 0 (elemAt heap (heap.length - 1))).dropLast).Perm heap := by
  cases heap with
  | nil => exact absurd rfl h
  | cons a t =>
    by_cases ht : t = []
    · subst ht
      simp [elemAt]
    · have hl : elemAt (a :: t) ((a :: t).length - 1) = t.getLast ht := by
        unfold elemAt
        obtain ⟨n, hn⟩ : ∃ n, t.length = n + 1 :=
          ⟨t.length - 1, by have := List.length_pos.mpr ht; omega⟩
        simp [hn, List.getLast_eq_getElem]
      rw [hl]
      have h1 : ((a :: t).set 0 (t.getLast ht)).dropLast = t.getLast ht :: t.dropLast := by
        simp [List.dropLast_cons_of_ne_nil ht]
      rw [h1]
      have h2 : elemAt (a :: t) 0 = a := by simp [elemAt]
      rw [h2]
      refine List.Perm.cons a ?_
      have h3 : (t.dropLast ++ [t.getLast ht]).Perm (t.getLast ht :: t.dropLast) :=
        List.perm_append_singleton _ _
      rw [List.dropLast_append_getLast ht] at h3
      exact h3.symm

theorem removeRoot_exceptDown (heap : List Int) (h : IsMaxHeap heap) :
    HeapExceptDown (heap.set 0 (elemAt heap (heap.length - 1))).dropLast 0 := by
  constructor
  · intro k hk0 hkn hkp
    simp only [List.length_dropLast, List.length_set] at hkn
    have := parent_lt k (by omega)
    rw [elemAt_dropLast _ _ (by simpa using hkn), elemAt_dropLast _ _ (by simp; omega),
      elemAt_set, elemAt_set]
    have e1 : ¬ (0 = k ∧ 0 < heap.length) := by omega
    have e2 : ¬ (0 = parent k ∧ 0 < heap.length) := by omega
    rw [if_neg e1, if_neg e2]
    exact h k hk0 (by omega)
  · intro k _ _ _ h0
    exact absurd rfl h0

theorem pop_of_ne_nil (q : PriorityQ) (h : q.heap ≠ []) :
    q.pop = ⟨heapifyDown (q.heap.set 0 (elemAt q.heap (q.heap.length - 1))).dropLast 0⟩ := by
  have : q.heap.length ≠ 0 := fun h0 => h (List.length_eq_zero.mp h0)
  simp [pop, popBody, empty, this]

theorem pop_of_nil (q : PriorityQ) (h : q.heap = []) : q.pop = q := by
  simp [pop, popBody, empty, h]

theorem top_of_ne_nil (q : PriorityQ) (h : q.heap ≠ []) : q.top = (elemAt q.heap 0, q) := by
  have : q.heap.length ≠ 0 := fun h0 => h (List.length_eq_zero.mp h0)
  simp [top, topBody, empty, this]

theorem top_of_nil (q : PriorityQ) (h : q.heap = []) : q.top = (-1, q) := by
  simp [top, topBody, empty, h]

theorem pop_length (q : PriorityQ) : q.pop.heap.length = q.heap.length - 1 := by
  by_cases h : q.heap = []
  · rw [pop_of_nil q h, h]; rfl
  · rw [pop_of_ne_nil q h]
    simp [heapifyDown, heapifyDownFuel_length]

theorem pop_perm (q : PriorityQ) (h : q.heap ≠ []) :
    (elemAt q.heap 0 :: q.pop.heap).Perm q.heap := by
  rw [pop_of_ne_nil q h]
  exact (List.Perm.cons _ (heapifyDownFuel_perm _ _ _)).trans (cons_removeRoot_perm q.heap h)

theorem pop_isMaxHeap (q : PriorityQ) (h : IsMaxHeap q.heap) : IsMaxHeap q.pop.heap := by
  by_cases hn : q.heap = []
  · rw [pop_of_nil q hn]; exact h
  · rw [pop_of_ne_nil q hn]
    exact heapifyDown_isMaxHeap _ _ (removeRoot_exceptDown _ h)

theorem isMaxHeap_nil : IsMaxHeap [] := by
  intro i _ hi
  exact absurd hi (Nat.not_lt_zero _)

theorem run_isMaxHeap (ops : List Op) : ∀ (q : PriorityQ), IsMaxHeap q.heap →
    IsMaxHeap (run q ops).heap := by
  induction ops with
  | nil => intro q h; exact h
  | cons op rest ih =>
    intro q h
    simp only [run, List.foldl_cons]
    apply ih
    cases op with
    | push v => exact push_isMaxHeap q v h
    | pop => exact pop_isMaxHeap q h

/-- In a max-heap the root bounds every element. -/
theorem root_max (heap : List Int) (h : IsMaxHeap heap) (i : Nat) (hi : i < heap.length) :
    elemAt heap i ≤ elemAt heap 0 := by
  induction i using Nat.strong_induction_on with
  | _ i ih =>
    by_cases h0 : i = 0
    · subst h0; exact Int.le_refl _
    · have hp := parent_lt i h0
      exact Int.le_trans (h i (by omega) hi) (ih _ hp (by omega))

theorem root_max_mem (heap : List Int) (h : IsMaxHeap heap) (x : Int) (hx : x ∈ heap) :
    x ≤ elemAt heap 0 := by
  obtain ⟨i, hi, rfl⟩ := exists_elemAt_of_mem heap x hx
  exact root_max heap h i hi

/-! ### `print` -/

/-- The inner loop of `print` computes what `heapifyDown` computes, when
`heapSize` is the size of the copy. -/
theorem printSift_eq (fuel : Nat) : ∀ (heap : List Int) (i : Nat),
    printSift fuel heap heap.length i = heapifyDownFuel fuel heap i := by
  induction fuel with
  | zero => intro heap i; rfl
  | succ n ih =>
    intro heap i
    simp only [printSift, heapifyDownFuel]
    by_cases hc : largestOf heap heap.length i = i
    · simp [hc]
    · have := ih (swap heap i (largestOf heap heap.length i)) (largestOf heap heap.length i)
      rw [length_swap] at this
      simp [hc, this]

/-- One iteration of the outer loop of `print`. -/
theorem printLoop_succ (fuel : Nat) (heap : List Int) (h : heap ≠ []) :
    printLoop (fuel + 1) heap heap.length =
      elemAt heap 0 :: printLoop fuel (PriorityQ.pop ⟨heap⟩).heap (PriorityQ.pop ⟨heap⟩).heap.length := by
  have hl : heap.length ≠ 0 := fun h0 => h (List.length_eq_zero.mp h0)
  rw [pop_of_ne_nil ⟨heap⟩ h]
  simp only [printLoop, if_neg hl]
  have e : heap.length - 1 = (heap.set 0 (elemAt heap (heap.length - 1))).dropLast.length := by
    simp
  have e2 := printSift_eq (heap.length - 1) (heap.set 0 (elemAt heap (heap.length - 1))).dropLast 0
  rw [← e] at e2
  rw [e2]
  simp only [heapifyDown, heapifyDownFuel_length]
  rw [← e]
  rfl

theorem printLoop_perm (fuel : Nat) : ∀ (heap : List Int), heap.length ≤ fuel →
    (printLoop fuel heap heap.length).Perm heap := by
  induction fuel with
  | zero =>
    intro heap h
    have : heap = [] := List.length_eq_zero.mp (by omega)
    subst this
    exact List.Perm.refl _
  | succ n ih =>
    intro heap h
    by_cases hn : heap = []
    · subst hn
      simp [printLoop]
    · rw [printLoop_succ n heap hn]
      have hlen := pop_length ⟨heap⟩
      have hlp : 0 < heap.length := List.length_pos.mpr hn
      have h1 := ih (PriorityQ.pop ⟨heap⟩).heap (by simp only [hlen]; omega)
      exact (List.Perm.cons _ h1).trans (pop_perm ⟨heap⟩ hn)

theorem printLoop_sorted (fuel : Nat) : ∀ (heap : List Int), heap.length ≤ fuel →
    IsMaxHeap heap → List.Sorted (· ≥ ·) (printLoop fuel heap heap.length) := by
  induction fuel with
  | zero =>
    intro heap _ _
    exact List.sorted_nil
  | succ n ih =>
    intro heap h hinv
    by_cases hn : heap = []
    · subst hn
      simp [printLoop]
    · rw [printLoop_succ n heap hn]
      have hlen := pop_length ⟨heap⟩
      have hlp : 0 < heap.length := List.length_pos.mpr hn
      have hle : (PriorityQ.pop ⟨heap⟩).heap.length ≤ n := by simp only [hlen]; omega
      have h1 := ih (PriorityQ.pop ⟨heap⟩).heap hle (pop_isMaxHeap ⟨heap⟩ hinv)
      have h2 := printLoop_perm n (PriorityQ.pop ⟨heap⟩).heap hle
      refine List.sorted_cons.mpr ⟨?_, h1⟩
      intro b hb
      have hb1 : b ∈ (PriorityQ.pop ⟨heap⟩).heap := h2.subset hb
      have hb2 : b ∈ heap := (pop_perm ⟨heap⟩ hn).subset (List.mem_cons_of_mem _ hb1)
      exact root_max_mem heap hinv b hb2

theorem print_out (q : PriorityQ) : q.print.2 = printLoop q.heap.length q.heap q.heap.length := by
  unfold print
  by_cases h : q.heap = []
  · simp [empty, h, printLoop]
  · have : q.heap.length ≠ 0 := fun h0 => h (List.length_eq_zero.mp h0)
    simp [empty, this]

theorem print_state (q : PriorityQ) : q.print.1 = q := by
  unfold print
  split <;> rfl

/-! ### `drain` -/

theorem pushAll_perm (xs : List Int) : ∀ (q : PriorityQ),
    (pushAll q xs).heap.Perm (q.heap ++ xs) := by
  induction xs with
  | nil => intro q; simp [pushAll]
  | cons x rest ih =>
    intro q
    simp only [pushAll, List.foldl_cons]
    refine (ih (q.push x)).trans ?_
    refine ((push_perm q x).append_right rest).trans ?_
    simp only [List.cons_append]
    exact List.perm_middle.symm

theorem pushAll_isMaxHeap (xs : List Int) : ∀ (q : PriorityQ), IsMaxHeap q.heap →
    IsMaxHeap (pushAll q xs).heap := by
  induction xs with
  | nil => intro q h; exact h
  | cons x rest ih =>
    intro q h
    simp only [pushAll, List.foldl_cons]
    exact ih _ (push_isMaxHeap q x h)

theorem drain_succ (n : Nat) (q : PriorityQ) (h : q.heap ≠ []) :
    drain (n + 1) q = (elemAt q.heap 0 :: (drain n q.pop).1, (drain n q.pop).2) := by
  simp only [drain, top_of_ne_nil q h]

theorem drain_spec (n : Nat) : ∀ (q : PriorityQ), q.heap.length = n → IsMaxHeap q.heap →
    List.Sorted (· ≥ ·) (drain n q).1 ∧ (drain n q).1.Perm q.heap ∧ (drain n q).2.heap = [] := by
  induction n with
  | zero =>
    intro q hl _
    have : q.heap = [] := List.length_eq_zero.mp hl
    simp [drain, this]
  | succ n ih =>
    intro q hl hinv
    have hn : q.heap ≠ [] := fun h0 => by simp [h0] at hl
    rw [drain_succ n q hn]
    obtain ⟨h1, h2, h3⟩ := ih q.pop (by rw [pop_length, hl]; rfl) (pop_isMaxHeap q hinv)
    refine ⟨List.sorted_cons.mpr ⟨?_, h1⟩, (List.Perm.cons _ h2).trans (pop_perm q hn), h3⟩
    intro b hb
    have hb2 : b ∈ q.heap := (pop_perm q hn).subset (List.mem_cons_of_mem _ (h2.subset hb))
    exact root_max_mem q.heap hinv b hb2

/-! ### The claims about `PriorityQ` -/

/-- Claim C1 (max-heap invariant).  After any finite sequence of `push` and `pop`
calls on a newly created queue, `heap[(i - 1) / 2] >= heap[i]` holds for every
index `i` with `0 < i < size()`. -/
theorem max_heap_invariant (ops : List Op) (i : Nat) (h0 : 0 < i)
    (hi : i < (run new ops).size) :
    elemAt (run new ops).heap ((i - 1) / 2) ≥ elemAt (run new ops).heap i :=
  run_isMaxHeap ops new isMaxHeap_nil i h0 hi

/-- Claim C1 at the calls `push(1); push(2); push(3); pop()` and index `1`. -/
theorem max_heap_invariant_witness :
    0 < 1 ∧ 1 < (run new [Op.push 1, Op.push 2, Op.push 3, Op.pop]).size ∧
      elemAt (run new [Op.push 1, Op.push 2, Op.push 3, Op.pop]).heap ((1 - 1) / 2) ≥
        elemAt (run new [Op.push 1, Op.push 2, Op.push 3, Op.pop]).heap 1 :=
  ⟨by decide, by decide,
    max_heap_invariant [Op.push 1, Op.push 2, Op.push 3, Op.pop] 1 (by decide) (by decide)⟩

/-- Claim C2 (`top` is the maximum).  For a non-empty queue reached from the empty
one by `push` and `pop` calls, the value returned by `top()` is one of the stored
integers and is at least every stored integer. -/
theorem top_is_maximum (ops : List Op) (hne : (run new ops).empty = false) :
    (run new ops).top.1 ∈ (run new ops).heap ∧
      ∀ x ∈ (run new ops).heap, x ≤ (run new ops).top.1 := by
  have hn : (run new ops).heap ≠ [] := by
    intro h
    simp [empty, h] at hne
  rw [top_of_ne_nil _ hn]
  exact ⟨elemAt_mem _ 0 (List.length_pos.mpr hn),
    root_max_mem _ (run_isMaxHeap ops new isMaxHeap_nil)⟩

/-- Claim C2 at the calls `push(3); push(7); pop(); push(5); push(4)`. -/
theorem top_is_maximum_witness :
    (run new [Op.push 3, Op.push 7, Op.pop, Op.push 5, Op.push 4]).empty = false ∧
      ((run new [Op.push 3, Op.push 7, Op.pop, Op.push 5, Op.push 4]).top.1 ∈
          (run new [Op.push 3, Op.push 7, Op.pop, Op.push 5, Op.push 4]).heap ∧
        ∀ x ∈ (run new [Op.push 3, Op.push 7, Op.pop, Op.push 5, Op.push 4]).heap,
          x ≤ (run new [Op.push 3, Op.push 7, Op.pop, Op.push 5, Op.push 4]).top.1) :=
  ⟨by decide, top_is_maximum [Op.push 3, Op.push 7, Op.pop, Op.push 5, Op.push 4] (by decide)⟩

/-- Claim C3 (descending dump).  For every queue reached from the empty one by
`push` and `pop` calls, the sequence written by `print()` is non-increasing, is a
permutation of the heap contents and has their length; pushing
50, 30, 10, 40, 20, 100, 70, 90, 60, 80 and printing writes
100, 90, 80, 70, 60, 50, 40, 30, 20, 10. -/
theorem print_sorted_perm :
    (∀ ops : List Op,
      List.Sorted (· ≥ ·) (run new ops).print.2 ∧
      (run new ops).print.2.Perm (run new ops).heap ∧
      (run new ops).print.2.length = (run new ops).size) ∧
    (pushAll new [50, 30, 10, 40, 20, 100, 70, 90, 60, 80]).print.2
      = [100, 90, 80, 70, 60, 50, 40, 30, 20, 10] := by
  refine ⟨fun ops => ?_, by decide⟩
  rw [print_out]
  have hp := printLoop_perm _ (run new ops).heap (Nat.le_refl _)
  exact ⟨printLoop_sorted _ _ (Nat.le_refl _) (run_isMaxHeap ops new isMaxHeap_nil), hp,
    hp.length_eq⟩

/-- Claim C4 (heap sort through the public interface).  Pushing the `N` elements
of a list into an empty queue and then `N` times recording `top()` and calling
`pop()` records a non-increasing permutation of the list and leaves the queue
empty. -/
theorem heap_sort (xs : List Int) :
    List.Sorted (· ≥ ·) (drain xs.length (pushAll new xs)).1 ∧
      (drain xs.length (pushAll new xs)).1.Perm xs ∧
      (drain xs.length (pushAll new xs)).2.empty = true ∧
      (drain xs.length (pushAll new xs)).2.size = 0 := by
  have hp : (pushAll new xs).heap.Perm xs := by
    simpa [new] using pushAll_perm xs new
  obtain ⟨h1, h2, h3⟩ := drain_spec xs.length (pushAll new xs) hp.length_eq
    (pushAll_isMaxHeap xs new isMaxHeap_nil)
  exact ⟨h1, h2.trans hp, by simp [empty, h3], by simp [size, h3]⟩

/-- Claim C5 (empty-queue handling).  On a queue with no elements `top()` returns
the sentinel `-1` and leaves the state unchanged, and `pop()` leaves the state
unchanged, with size `0`; the exception raised inside is caught in both.  On a
non-empty queue `top()` returns `heap[0]`. -/
theorem empty_queue_handling :
    (∀ q : PriorityQ, q.empty = true →
      topBody q = Except.error QError.underflow ∧ q.top = (-1, q) ∧
      popBody q = Except.error QError.underflow ∧ q.pop = q ∧
      q.pop.heap = [] ∧ q.pop.size = 0) ∧
    (∀ (x : Int) (rest : List Int),
      (PriorityQ.mk (x :: rest)).top = (x, PriorityQ.mk (x :: rest))) := by
  constructor
  · intro q hq
    have hn : q.heap = [] := by
      simpa [empty] using hq
    refine ⟨by simp [topBody, hq], top_of_nil q hn, by simp [popBody, hq], pop_of_nil q hn, ?_, ?_⟩
    · rw [pop_of_nil q hn, hn]
    · rw [pop_of_nil q hn, size, hn]; rfl
  · intro x rest
    rw [top_of_ne_nil _ (by simp)]
    rfl

/-- Claim C5 at the newly created queue. -/
theorem empty_queue_handling_witness :
    new.empty = true ∧ new.top = (-1, new) ∧ new.pop = new ∧ new.pop.size = 0 :=
  ⟨by decide, (empty_queue_handling.1 new (by decide)).2.1,
    (empty_queue_handling.1 new (by decide)).2.2.2.1,
    (empty_queue_handling.1 new (by decide)).2.2.2.2.2⟩

/-- Claim C6 (`push` adds exactly one element).  On any queue, after `push(value)`
the size is the old size plus one and the stored integers are the old ones with
one more occurrence of `value`. -/
theorem push_adds_one (q : PriorityQ) (value : Int) :
    (q.push value).size = q.size + 1 ∧ (q.push value).heap.Perm (value :: q.heap) :=
  ⟨push_length q value, push_perm q value⟩

/-- Claim C7 (`pop` removes one occurrence of the maximum).  On a non-empty queue
that satisfies the max-heap invariant, after `pop()` the size is the old size
minus one and the stored integers are the old ones minus one occurrence of the
old `top()` value, which is the maximum of the old contents. -/
theorem pop_removes_max (q : PriorityQ) (hne : q.empty = false) (hinv : IsMaxHeap q.heap) :
    q.pop.size = q.size - 1 ∧ q.pop.heap.Perm (q.heap.erase q.top.1) ∧
      q.top.1 ∈ q.heap ∧ ∀ x ∈ q.heap, x ≤ q.top.1 := by
  have hn : q.heap ≠ [] := by
    intro h
    simp [empty, h] at hne
  have hp := pop_perm q hn
  rw [top_of_ne_nil q hn]
  exact ⟨pop_length q, (List.cons_perm_iff_perm_erase.mp hp).2,
    elemAt_mem _ 0 (List.length_pos.mpr hn), root_max_mem _ hinv⟩

/-- Claim C7 at the heap `[9, 5, 8, 1, 5]`. -/
theorem pop_removes_max_witness :
    (PriorityQ.mk [9, 5, 8, 1, 5]).empty = false ∧ IsMaxHeap [9, 5, 8, 1, 5] ∧
      (PriorityQ.mk [9, 5, 8, 1, 5]).pop.size = (PriorityQ.mk [9, 5, 8, 1, 5]).size - 1 ∧
      (PriorityQ.mk [9, 5, 8, 1, 5]).pop.heap.Perm
        ([9, 5, 8, 1, 5].erase (PriorityQ.mk [9, 5, 8, 1, 5]).top.1) :=
  have hinv : IsMaxHeap [9, 5, 8, 1, 5] := by
    intro i h0 hi
    have hi : i < 5 := hi
    interval_cases i <;> decide
  ⟨by decide, hinv, (pop_removes_max ⟨[9, 5, 8, 1, 5]⟩ (by decide) hinv).1,
    (pop_removes_max ⟨[9, 5, 8, 1, 5]⟩ (by decide) hinv).2.1⟩

/-- Claim C8 (`print` is non-destructive).  For every queue state the heap vector
after `print()` is the heap vector before it, so a second `print()` writes the
same sequence as the first. -/
theorem print_nondestructive (q : PriorityQ) :
    q.print.1.heap = q.heap ∧ q.print.1.print.2 = q.print.2 := by
  rw [print_state]
  exact ⟨rfl, rfl⟩

/-! ### `print` against repeated `top` and `pop`; the choice of the child -/

theorem printLoop_eq_drain (n : Nat) : ∀ (heap : List Int), heap.length = n →
    printLoop n heap heap.length = (drain n ⟨heap⟩).1 := by
  induction n with
  | zero => intro heap _; rfl
  | succ n ih =>
    intro heap hl
    have hn : heap ≠ [] := fun h0 => by simp [h0] at hl
    rw [printLoop_succ n heap hn, drain_succ n ⟨heap⟩ hn]
    have hlen : (PriorityQ.pop ⟨heap⟩).heap.length = n := by
      rw [pop_length]
      simp only [hl, Nat.add_sub_cancel]
    rw [ih _ hlen]

theorem drain_size (n : Nat) : ∀ (q : PriorityQ), (drain n q).2.size = q.size - n := by
  induction n with
  | zero => intro q; rfl
  | succ n ih =>
    intro q
    have ht : q.top.2 = q := by
      by_cases h : q.heap = []
      · rw [top_of_nil q h]
      · rw [top_of_ne_nil q h]
    simp only [drain, ht]
    rw [ih q.pop]
    simp only [size, pop_length]
    omega

/-- Claim C16 (the dump is repeated extraction).  For every heap vector `h`, the
sequence written by `print()` equals the sequence recorded by `top()` and `pop()`
repeated on a queue holding `h`; the queue has `size() - k` elements after `k`
rounds, so it is empty after exactly `size()` rounds. -/
theorem print_eq_drain (h : List Int) :
    (PriorityQ.mk h).print.2 = (drain h.length ⟨h⟩).1 ∧
      (∀ k, (drain k ⟨h⟩).2.size = h.length - k) ∧
      (drain h.length ⟨h⟩).2.empty = true := by
  refine ⟨?_, fun k => drain_size k ⟨h⟩, ?_⟩
  · rw [print_out]
    exact printLoop_eq_drain h.length h rfl
  · have := drain_size h.length ⟨h⟩
    simp only [size, Nat.sub_self] at this
    simp [empty, this]

theorem heapifyDownFuel_below (fuel : Nat) : ∀ (heap : List Int) (i k : Nat), k < i →
    elemAt (heapifyDownFuel fuel heap i) k = elemAt heap k := by
  induction fuel with
  | zero => intro heap i k _; rfl
  | succ n ih =>
    intro heap i k hk
    simp only [heapifyDownFuel]
    split
    · rename_i hc
      obtain ⟨h1, h2⟩ := largestOf_lt heap heap.length i hc
      rw [ih _ _ k (by omega), elemAt_swap heap i _ k (by omega) h2]
      have e1 : ¬ k = largestOf heap heap.length i := by omega
      have e2 : ¬ k = i := by omega
      simp only [e1, e2, if_false]
    · rfl

theorem largestOf_left (heap : List Int) (i : Nat) (hr : 2 * i + 2 < heap.length)
    (hl : elemAt heap i < elemAt heap (2 * i + 1))
    (hle : elemAt heap (2 * i + 2) ≤ elemAt heap (2 * i + 1)) :
    largestOf heap heap.length i = 2 * i + 1 := by
  unfold largestOf leftChild rightChild
  dsimp only
  split_ifs <;> omega

theorem largestOf_right (heap : List Int) (i : Nat) (hr : 2 * i + 2 < heap.length)
    (hl : elemAt heap i < elemAt heap (2 * i + 1))
    (hlt : elemAt heap (2 * i + 1) < elemAt heap (2 * i + 2)) :
    largestOf heap heap.length i = 2 * i + 2 := by
  unfold largestOf leftChild rightChild
  dsimp only
  split_ifs <;> omega

theorem largestOf_self (heap : List Int) (i : Nat)
    (hl : 2 * i + 1 < heap.length → elemAt heap (2 * i + 1) ≤ elemAt heap i)
    (hr : 2 * i + 2 < heap.length → elemAt heap (2 * i + 2) ≤ elemAt heap i) :
    largestOf heap heap.length i = i := by
  unfold largestOf leftChild rightChild
  dsimp only
  split_ifs with h1 h2 h3 <;> first | rfl | (exfalso; omega)

theorem heapifyDown_step (heap : List Int) (i c : Nat) (hc : largestOf heap heap.length i = c)
    (hne : c ≠ i) :
    heapifyDown heap i = heapifyDown (swap heap i c) c ∧
      elemAt (heapifyDown heap i) i = elemAt heap c := by
  have h1 : heapifyDown heap i = heapifyDown (swap heap i c) c := by
    rw [heapifyDown_eq heap i, hc, if_pos hne]
  refine ⟨h1, ?_⟩
  obtain ⟨hlt, hlen⟩ := largestOf_lt heap heap.length i (hc ▸ hne)
  rw [hc] at hlt hlen
  rw [h1]
  unfold heapifyDown
  rw [heapifyDownFuel_below _ _ c i hlt, elemAt_swap heap i c i (by omega) hlen]
  simp [Nat.ne_of_lt hlt]

/-- Claim C17 (tie-break of the sift-down).  In `heapifyDown(i)` on a vector where
both children `2i+1` and `2i+2` are in range and both greater than `heap[i]`,
`heap[i]` is swapped with the right child when it is strictly greater than the
left child, and with the left child otherwise (in particular when the two are
equal), after which the sift-down goes on from that child; position `i` then
holds the value of that child.  When no child in range is strictly greater than
`heap[i]`, the vector is unchanged. -/
theorem heapifyDown_tie_break :
    (∀ (heap : List Int) (i : Nat), 2 * i + 2 < heap.length →
      elemAt heap i < elemAt heap (2 * i + 1) → elemAt heap i < elemAt heap (2 * i + 2) →
      (elemAt heap (2 * i + 2) ≤ elemAt heap (2 * i + 1) →
        heapifyDown heap i = heapifyDown (swap heap i (2 * i + 1)) (2 * i + 1) ∧
          elemAt (heapifyDown heap i) i = elemAt heap (2 * i + 1)) ∧
      (elemAt heap (2 * i + 1) < elemAt heap (2 * i + 2) →
        heapifyDown heap i = heapifyDown (swap heap i (2 * i + 2)) (2 * i + 2) ∧
          elemAt (heapifyDown heap i) i = elemAt heap (2 * i + 2))) ∧
    (∀ (heap : List Int) (i : Nat),
      (2 * i + 1 < heap.length → elemAt heap (2 * i + 1) ≤ elemAt heap i) →
      (2 * i + 2 < heap.length → elemAt heap (2 * i + 2) ≤ elemAt heap i) →
      heapifyDown heap i = heap) := by
  refine ⟨fun heap i hr hl _ => ⟨fun hle => ?_, fun hlt => ?_⟩, fun heap i hl hr => ?_⟩
  · exact heapifyDown_step heap i _ (largestOf_left heap i hr hl hle) (by omega)
  · exact heapifyDown_step heap i _ (largestOf_right heap i hr hl hlt) (by omega)
  · rw [heapifyDown_eq heap i, largestOf_self heap i hl hr]
    simp

/-- Claim C17 on `[1, 5, 5]` (equal children: the left one is taken), on
`[1, 5, 9]` (the larger, right child is taken) and on `[7, 5, 7]` (no child is
strictly greater: unchanged). -/
theorem heapifyDown_tie_break_witness :
    (heapifyDown [1, 5, 5] 0 = heapifyDown (swap [1, 5, 5] 0 1) 1 ∧
        heapifyDown [1, 5, 5] 0 = [5, 1, 5]) ∧
      (heapifyDown [1, 5, 9] 0 = heapifyDown (swap [1, 5, 9] 0 2) 2 ∧
        heapifyDown [1, 5, 9] 0 = [9, 5, 1]) ∧
      heapifyDown [7, 5, 7] 0 = [7, 5, 7] :=
  ⟨⟨((heapifyDown_tie_break.1 [1, 5, 5] 0 (by decide) (by decide) (by decide)).1
        (by decide)).1, by decide⟩,
    ⟨((heapifyDown_tie_break.1 [1, 5, 9] 0 (by decide) (by decide) (by decide)).2
        (by decide)).1, by decide⟩,
    heapifyDown_tie_break.2 [7, 5, 7] 0 (by decide) (by decide)⟩

end PriorityQ

/-! ## Theorems about `Graph` -/

namespace Graph

/-! ### Reading and writing vectors -/

theorem rowAt_set {α : Type} (rows : List (List α)) (i j : Nat) (x : List α) :
    rowAt (rows.set i x) j = if i = j ∧ i < rows.length then x else rowAt rows j := by
  unfold rowAt
  simp only [List.getD_eq_getElem?_getD, List.getElem?_set]
  by_cases hij : i = j
  · subst hij
    by_cases hi : i < rows.length
    · simp [hi]
    · simp [hi, List.getElem?_eq_none (Nat.le_of_not_lt hi)]
  · simp [hij]

theorem intAt_set (xs : List Int) (i j : Nat) (x : Int) :
    intAt (xs.set i x) j = if i = j ∧ i < xs.length then x else intAt xs j := by
  unfold intAt
  simp only [List.getD_eq_getElem?_getD, List.getElem?_set]
  by_cases hij : i = j
  · subst hij
    by_cases hi : i < xs.length
    · simp [hi]
    · simp [hi, List.getElem?_eq_none (Nat.le_of_not_lt hi)]
  · simp [hij]

theorem rowAt_replicate {α : Type} (n i : Nat) (x : List α) (h : i < n) :
    rowAt (List.replicate n x) i = x := by
  simp [rowAt, List.getElem?_replicate, h]

theorem intAt_replicate (n i : Nat) (x : Int) (h : i < n) :
    intAt (List.replicate n x) i = x := by
  simp [intAt, List.getElem?_replicate, h]

theorem find_le (nodes : List Int) (x : Int) : find nodes x ≤ nodes.length := by
  induction nodes with
  | nil => simp [find]
  | cons a rest ih =>
    simp only [find]
    split
    · exact Nat.zero_le _
    · simp only [List.length_cons]; omega

theorem find_lt_of_mem (nodes : List Int) (x : Int) (h : x ∈ nodes) :
    find nodes x < nodes.length := by
  induction nodes with
  | nil => simp at h
  | cons a rest ih =>
    simp only [find]
    split
    · simp
    · rename_i hne
      have hx : x ∈ rest := by
        rcases List.mem_cons.mp h with h1 | h1
        · exact absurd h1.symm hne
        · exact h1
      have := ih hx
      simp only [List.length_cons]; omega

/-! ### The constructor -/

theorem new_wellShaped (nodes : List Int) : WellShaped (new nodes) := by
  refine ⟨rfl, by simp [new], by simp [new], ?_⟩
  intro i hi
  have hi : i < nodes.length := hi
  simp only [new, rowAt_replicate _ _ _ hi, List.length_replicate]

theorem new_neighbors (nodes : List Int) (i : Nat) (hi : i < nodes.length) :
    (new nodes).neighbors i = [] := by
  simp only [neighbors, new, rowAt_replicate _ _ _ hi]

theorem new_entry (nodes : List Int) (i j : Nat) (hi : i < nodes.length)
    (hj : j < nodes.length) : (new nodes).entry i j = 0 := by
  simp only [entry, new, rowAt_replicate _ _ _ hi, intAt_replicate _ _ _ hj]

theorem new_consistent (nodes : List Int) : Consistent (new nodes) := by
  intro i j hi hj
  have hi : i < nodes.length := hi
  have hj : j < nodes.length := hj
  rw [new_entry nodes i j hi hj, new_entry nodes j i hj hi, new_neighbors nodes i hi]
  simp

/-! ### `addEdge` -/

/-- What a successful `addEdge` does, for indices inside a well-shaped graph. -/
theorem addEdge_some (g : Graph) (u v : Int) (hw : WellShaped g)
    (hu : g.getNodeIndex u < g.nodes.length) (hv : g.getNodeIndex v < g.nodes.length) :
    ∃ g1, g.addEdge u v = some g1 ∧ g1.nodes = g.nodes ∧ WellShaped g1 ∧
      (∀ a, g1.neighbors a = g.neighbors a
          ++ (if a = g.getNodeIndex u then [g.getNodeIndex v] else [])
          ++ (if a = g.getNodeIndex v then [g.getNodeIndex u] else [])) ∧
      (∀ a b, g1.entry a b =
          if (a = g.getNodeIndex u ∧ b = g.getNodeIndex v) ∨
              (a = g.getNodeIndex v ∧ b = g.getNodeIndex u) then 1 else g.entry a b) := by
  obtain ⟨hN, hA, hM, hR⟩ := hw
  generalize hui : g.getNodeIndex u = ui at *
  generalize hvi : g.getNodeIndex v = vi at *
  have hRu := hR ui hu
  have hRv := hR vi hv
  have hrow1 : (rowAt (g.adjMatrix.set ui ((rowAt g.adjMatrix ui).set vi 1)) vi).length
      = g.nodes.length := by
    rw [rowAt_set]
    split
    · simp [hRu]
    · exact hRv
  refine ⟨Graph.mk g.numNodes
      ((g.adjList.set ui (rowAt g.adjList ui ++ [vi])).set vi
        (rowAt (g.adjList.set ui (rowAt g.adjList ui ++ [vi])) vi ++ [ui]))
      ((g.adjMatrix.set ui ((rowAt g.adjMatrix ui).set vi 1)).set vi
        ((rowAt (g.adjMatrix.set ui ((rowAt g.adjMatrix ui).set vi 1)) vi).set ui 1))
      g.nodes, ?_, rfl, ?_, ?_, ?_⟩
  · simp only [addEdge, pushBackAt, setEntry, hui, hvi, hA, hM, hu, hv, hRu, hrow1,
      List.length_set, if_true, and_self, Option.bind_eq_bind, Option.some_bind,
      Option.pure_def]
  · refine ⟨hN, by simp [hA], by simp [hM], ?_⟩
    intro i hi
    have hi : i < g.nodes.length := hi
    simp only [rowAt_set, List.length_set]
    split
    · split
      · simp [hRu]
      · simp [hRv]
    · split
      · simp [hRu]
      · exact hR i hi
  · intro a
    simp only [neighbors, rowAt_set, List.length_set, hA, hu, hv, and_true]
    by_cases h1 : vi = a
    · by_cases h2 : ui = a
      · subst h1; subst h2; simp
      · subst h1
        have h3 : ¬ vi = ui := fun h => h2 h.symm
        simp [h2, h3]
    · have h3 : ¬ a = vi := fun h => h1 h.symm
      by_cases h2 : ui = a
      · subst h2; simp [h1, h3]
      · have h4 : ¬ a = ui := fun h => h2 h.symm
        simp [h1, h2, h3, h4]
  · intro a b
    simp only [entry, rowAt_set, intAt_set, List.length_set, hM, hu, hv, and_true]
    by_cases huv : ui = vi
    · subst huv
      by_cases h1 : a = ui
      · subst h1
        by_cases h3 : b = a
        · subst h3; simp [intAt_set, hRu]; intro h; omega
        · have h4 : ¬ a = b := fun h => h3 h.symm
          simp [intAt_set, h3, h4]
      · have h2 : ¬ ui = a := fun h => h1 h.symm
        simp [h1, h2]
    · have hvu : ¬ vi = ui := fun h => huv h.symm
      by_cases h1 : a = vi
      · subst h1
        by_cases h3 : b = ui
        · subst h3; simp [intAt_set, huv, hvu, hRv]; intro h; omega
        · have h4 : ¬ ui = b := fun h => h3 h.symm
          simp [intAt_set, huv, hvu, h3, h4]
      · have h2 : ¬ vi = a := fun h => h1 h.symm
        by_cases h5 : a = ui
        · subst h5
          by_cases h3 : b = vi
          · subst h3; simp [intAt_set, huv, hvu, hRu]; intro h; omega
          · have h4 : ¬ vi = b := fun h => h3 h.symm
            simp [intAt_set, huv, hvu, h3, h4]
        · have h6 : ¬ ui = a := fun h => h5 h.symm
          simp [h1, h2, h5, h6]

/-- A successful `addEdge` was called with labels that resolve to indices below
the number of nodes. -/
theorem addEdge_index_lt (g g1 : Graph) (u v : Int) (hw : WellShaped g)
    (h : g.addEdge u v = some g1) :
    g.getNodeIndex u < g.nodes.length ∧ g.getNodeIndex v < g.nodes.length := by
  obtain ⟨-, hA, -, -⟩ := hw
  by_cases hu : g.getNodeIndex u < g.adjList.length
  · by_cases hv : g.getNodeIndex v < g.adjList.length
    · exact ⟨hA ▸ hu, hA ▸ hv⟩
    · simp [addEdge, pushBackAt, hu, hv] at h
  · simp [addEdge, pushBackAt, hu] at h

theorem addEdge_consistent (g g1 : Graph) (u v : Int) (hw : WellShaped g) (hc : Consistent g)
    (h : g.addEdge u v = some g1) : g1.nodes = g.nodes ∧ WellShaped g1 ∧ Consistent g1 := by
  obtain ⟨hu, hv⟩ := addEdge_index_lt g g1 u v hw h
  obtain ⟨g2, h2, hn, hw2, hnb, hen⟩ := addEdge_some g u v hw hu hv
  rw [h2] at h
  cases h
  refine ⟨hn, hw2, ?_⟩
  intro i j hi hj
  rw [hn] at hi hj
  obtain ⟨c1, c2, c3⟩ := hc i j hi hj
  rw [hen i j, hen j i, hnb i]
  refine ⟨?_, ?_, ?_⟩
  · by_cases e1 : i = g.getNodeIndex u ∧ j = g.getNodeIndex v
    · simp [e1]
    · by_cases e2 : i = g.getNodeIndex v ∧ j = g.getNodeIndex u
      · simp [e2]
      · rw [if_neg (by tauto), c1]
        simp only [List.mem_append]
        constructor
        · intro hm; exact Or.inl (Or.inl hm)
        · intro hm
          rcases hm with (hm | hm) | hm
          · exact hm
          · split at hm
            · rename_i e; simp at hm; exact absurd ⟨e, hm⟩ e1
            · simp at hm
          · split at hm
            · rename_i e; simp at hm; exact absurd ⟨e, hm⟩ e2
            · simp at hm
  · split
    · exact Or.inr rfl
    · exact c2
  · by_cases e : (i = g.getNodeIndex u ∧ j = g.getNodeIndex v) ∨
        (i = g.getNodeIndex v ∧ j = g.getNodeIndex u)
    · rw [if_pos e, if_pos (by tauto)]
    · rw [if_neg e, if_neg (by tauto)]
      exact c3

theorem addEdge_wellShaped (g g1 : Graph) (u v : Int) (hw : WellShaped g)
    (h : g.addEdge u v = some g1) : g1.nodes = g.nodes ∧ WellShaped g1 := by
  obtain ⟨hu, hv⟩ := addEdge_index_lt g g1 u v hw h
  obtain ⟨g2, h2, hn, hw2, -, -⟩ := addEdge_some g u v hw hu hv
  rw [h2] at h
  cases h
  exact ⟨hn, hw2⟩

/-- Every graph produced by a sequence of `addEdge` calls keeps the node list and
the shape of the graph it started from. -/
theorem addEdges_wellShaped (es : List (Int × Int)) : ∀ (g g1 : Graph), WellShaped g →
    addEdges g es = some g1 → g1.nodes = g.nodes ∧ WellShaped g1 := by
  induction es with
  | nil =>
    intro g g1 hw h
    simp only [addEdges, Option.some.injEq] at h
    subst h
    exact ⟨rfl, hw⟩
  | cons e rest ih =>
    intro g g1 hw h
    obtain ⟨u, v⟩ := e
    simp only [addEdges] at h
    cases hg : g.addEdge u v with
    | none => simp [hg] at h
    | some g2 =>
      rw [hg] at h
      obtain ⟨hn2, hw2⟩ := addEdge_wellShaped g g2 u v hw hg
      obtain ⟨hn1, hw1⟩ := ih g2 g1 hw2 h
      exact ⟨hn1.trans hn2, hw1⟩

/-- A sequence of `addEdge` calls with known labels succeeds and keeps the two
representations consistent. -/
theorem addEdges_consistent (es : List (Int × Int)) : ∀ (g : Graph), WellShaped g →
    Consistent g → (∀ e ∈ es, e.1 ∈ g.nodes ∧ e.2 ∈ g.nodes) →
    ∃ g1, addEdges g es = some g1 ∧ g1.nodes = g.nodes ∧ WellShaped g1 ∧ Consistent g1 := by
  induction es with
  | nil =>
    intro g hw hc _
    exact ⟨g, rfl, rfl, hw, hc⟩
  | cons e rest ih =>
    intro g hw hc hk
    obtain ⟨u, v⟩ := e
    obtain ⟨hu, hv⟩ := hk (u, v) (List.mem_cons_self _ _)
    obtain ⟨g2, h2, -⟩ := addEdge_some g u v hw (find_lt_of_mem _ _ hu) (find_lt_of_mem _ _ hv)
    obtain ⟨hn2, hw2, hc2⟩ := addEdge_consistent g g2 u v hw hc h2
    obtain ⟨g1, h1, hn1, hw1, hc1⟩ := ih g2 hw2 hc2 (by
      intro e he
      rw [hn2]
      exact hk e (List.mem_cons_of_mem _ he))
    refine ⟨g1, ?_, hn1.trans hn2, hw1, hc1⟩
    simp only [addEdges, h2, Option.some_bind]
    exact h1

/-! ### The claims about the two representations -/

/-- Claim C9 (`addEdge` is symmetric).  For a graph built by the constructor and
earlier `addEdge` calls, and labels `u`, `v` of the node list with indices
`i = getNodeIndex(u)` and `j = getNodeIndex(v)`, the call `addEdge(u, v)` stays
inside the vectors, and afterwards `adjMatrix[i][j] == 1`, `adjMatrix[j][i] == 1`,
`j` is in `adjList[i]` and `i` is in `adjList[j]`. -/
theorem addEdge_symmetry (nodes : List Int) (es : List (Int × Int)) (g : Graph)
    (hg : addEdges (new nodes) es = some g) (u v : Int) (hu : u ∈ nodes) (hv : v ∈ nodes) :
    ∃ g1, g.addEdge u v = some g1 ∧
      g1.entry (g.getNodeIndex u) (g.getNodeIndex v) = 1 ∧
      g1.entry (g.getNodeIndex v) (g.getNodeIndex u) = 1 ∧
      g.getNodeIndex v ∈ g1.neighbors (g.getNodeIndex u) ∧
      g.getNodeIndex u ∈ g1.neighbors (g.getNodeIndex v) := by
  obtain ⟨hn, hw⟩ := addEdges_wellShaped es (new nodes) g (new_wellShaped nodes) hg
  have hn : g.nodes = nodes := hn
  have hui : g.getNodeIndex u < g.nodes.length := find_lt_of_mem _ _ (hn ▸ hu)
  have hvi : g.getNodeIndex v < g.nodes.length := find_lt_of_mem _ _ (hn ▸ hv)
  obtain ⟨g1, h1, -, -, hnb, hen⟩ := addEdge_some g u v hw hui hvi
  refine ⟨g1, h1, ?_, ?_, ?_, ?_⟩
  · rw [hen]; simp
  · rw [hen]; simp
  · rw [hnb]; simp
  · rw [hnb]; simp

/-- Claim C9 on the nodes 10, 20, 30 after `addEdge(10, 20)`, for
`addEdge(20, 30)`. -/
theorem addEdge_symmetry_witness :
    addEdges (new [10, 20, 30]) [(10, 20)]
        = some ⟨3, [[1], [0], []], [[0, 1, 0], [1, 0, 0], [0, 0, 0]], [10, 20, 30]⟩ ∧
      (20 : Int) ∈ [(10 : Int), 20, 30] ∧ (30 : Int) ∈ [(10 : Int), 20, 30] ∧
      ∃ g1, addEdge ⟨3, [[1], [0], []], [[0, 1, 0], [1, 0, 0], [0, 0, 0]], [10, 20, 30]⟩ 20 30
          = some g1 ∧
        g1.entry 1 2 = 1 ∧ g1.entry 2 1 = 1 ∧ 2 ∈ g1.neighbors 1 ∧ 1 ∈ g1.neighbors 2 :=
  ⟨by decide, by decide, by decide,
    addEdge_symmetry [10, 20, 30] [(10, 20)]
      ⟨3, [[1], [0], []], [[0, 1, 0], [1, 0, 0], [0, 0, 0]], [10, 20, 30]⟩
      (by decide) 20 30 (by decide) (by decide)⟩

/-- Claim C10 (representation consistency).  A newly constructed graph has `N`
empty adjacency lists and an all-zero `N` by `N` matrix; after any sequence of
`addEdge` calls with known labels, for all indices `i, j < N`:
`adjMatrix[i][j] == 1` exactly when `j` occurs in `adjList[i]`, every matrix entry
is `0` or `1`, and `adjMatrix[i][j] == adjMatrix[j][i]`. -/
theorem representation_consistency (nodes : List Int) (es : List (Int × Int))
    (hk : ∀ e ∈ es, e.1 ∈ nodes ∧ e.2 ∈ nodes) :
    ((new nodes).adjList.length = nodes.length ∧ (new nodes).adjMatrix.length = nodes.length ∧
      ∀ i, i < nodes.length → (new nodes).neighbors i = [] ∧
        (rowAt (new nodes).adjMatrix i).length = nodes.length ∧
        ∀ j, j < nodes.length → (new nodes).entry i j = 0) ∧
    ∃ g, addEdges (new nodes) es = some g ∧
      ∀ i j, i < nodes.length → j < nodes.length →
        (g.entry i j = 1 ↔ j ∈ g.neighbors i) ∧ (g.entry i j = 0 ∨ g.entry i j = 1) ∧
          g.entry i j = g.entry j i := by
  constructor
  · obtain ⟨-, hA, hM, hR⟩ := new_wellShaped nodes
    exact ⟨hA, hM, fun i hi => ⟨new_neighbors nodes i hi, hR i hi,
      fun j hj => new_entry nodes i j hi hj⟩⟩
  · obtain ⟨g, h1, hn, -, hc⟩ :=
      addEdges_consistent es (new nodes) (new_wellShaped nodes) (new_consistent nodes) hk
    have hn : g.nodes = nodes := hn
    refine ⟨g, h1, ?_⟩
    intro i j hi hj
    exact hc i j (hn ▸ hi) (hn ▸ hj)

/-- Claim C10 on the graph built by `main`. -/
theorem representation_consistency_witness :
    (∀ e ∈ [((0 : Int), (1 : Int)), (0, 2), (1, 3), (1, 4), (2, 5)],
        e.1 ∈ [(0 : Int), 1, 2, 3, 4, 5] ∧ e.2 ∈ [(0 : Int), 1, 2, 3, 4, 5]) ∧
      ∃ g, addEdges (new [0, 1, 2, 3, 4, 5]) [(0, 1), (0, 2), (1, 3), (1, 4), (2, 5)] = some g ∧
        ∀ i j, i < 6 → j < 6 →
          (g.entry i j = 1 ↔ j ∈ g.neighbors i) ∧ (g.entry i j = 0 ∨ g.entry i j = 1) ∧
            g.entry i j = g.entry j i :=
  ⟨by decide,
    (representation_consistency [0, 1, 2, 3, 4, 5] [(0, 1), (0, 2), (1, 3), (1, 4), (2, 5)]
      (by decide)).2⟩

/-! ### The vector `visited` -/

theorem readAt_of_getElem? {α : Type} (xs : List α) (i : Nat) (x : α) (h : xs[i]? = some x) :
    readAt xs i = Except.ok x := by
  simp [readAt, h]

theorem readAt_rowAt {α : Type} (rows : List (List α)) (i : Nat) (h : i < rows.length) :
    readAt rows i = Except.ok (rowAt rows i) := by
  apply readAt_of_getElem?
  simp [rowAt, List.getElem?_eq_getElem h]

theorem readAt_intAt (xs : List Int) (i : Nat) (h : i < xs.length) :
    readAt xs i = Except.ok (intAt xs i) := by
  apply readAt_of_getElem?
  simp [intAt, List.getElem?_eq_getElem h]

theorem getElem?_bool_cases (vis : List Bool) (i : Nat) (h : i < vis.length) :
    vis[i]? = some true ∨ vis[i]? = some false := by
  rw [List.getElem?_eq_getElem h]
  cases vis[i] <;> simp

theorem lt_of_getElem?_eq_some {α : Type} (xs : List α) (i : Nat) (x : α) (h : xs[i]? = some x) :
    i < xs.length := by
  by_contra hc
  rw [List.getElem?_eq_none (Nat.le_of_not_lt hc)] at h
  exact absurd h (by simp)

theorem count_false_set_true (vis : List Bool) (v : Nat) (h : vis[v]? = some false) :
    (vis.set v true).count false + 1 = vis.count false := by
  have hv := lt_of_getElem?_eq_some vis v false h
  have hget : vis[v] = false := by
    rw [List.getElem?_eq_getElem hv] at h
    exact Option.some.inj h
  have h1 := List.count_set true false vis v hv
  have h2 : 0 < vis.count false := by
    apply List.count_pos_iff.mpr
    rw [← hget]
    exact List.getElem_mem hv
  rw [hget] at h1
  simp at h1
  omega

theorem marks_refl (vis : List Bool) : Marks vis vis [] := by
  refine ⟨rfl, ?_, List.nodup_nil, ?_, ?_⟩
  · intro i; simp
  · intro i hi; simp at hi
  · simp

theorem marks_set (vis : List Bool) (v : Nat) (h : vis[v]? = some false) :
    Marks vis (vis.set v true) [v] := by
  have hv := lt_of_getElem?_eq_some vis v false h
  refine ⟨by simp, ?_, List.nodup_singleton v, ?_, ?_⟩
  · intro i
    rw [List.getElem?_set]
    by_cases hvi : v = i
    · subst hvi
      simp [hv]
    · have : ¬ i = v := fun e => hvi e.symm
      simp [hvi, this]
  · intro i hi
    rw [List.mem_singleton] at hi
    rw [hi]; exact h
  · simpa using count_false_set_true vis v h

theorem marks_mono (vis vis1 : List Bool) (trace : List Nat) (h : Marks vis vis1 trace)
    (j : Nat) (hj : vis[j]? = some true) : vis1[j]? = some true :=
  (h.2.1 j).mpr (Or.inl hj)

theorem marks_trans (a b c : List Bool) (t1 t2 : List Nat) (h1 : Marks a b t1)
    (h2 : Marks b c t2) : Marks a c (t1 ++ t2) := by
  obtain ⟨l1, m1, n1, u1, c1⟩ := h1
  obtain ⟨l2, m2, n2, u2, c2⟩ := h2
  refine ⟨l2.trans l1, ?_, ?_, ?_, ?_⟩
  · intro i
    rw [m2 i, m1 i, List.mem_append]
    tauto
  · rw [List.nodup_append]
    refine ⟨n1, n2, ?_⟩
    intro i hi1 hi2
    have e1 : b[i]? = some true := (m1 i).mpr (Or.inr hi1)
    have e2 := u2 i hi2
    rw [e1] at e2
    exact absurd e2 (by simp)
  · intro i hi
    rcases List.mem_append.mp hi with hi | hi
    · exact u1 i hi
    · have e2 := u2 i hi
      have hlt : i < a.length := l1 ▸ lt_of_getElem?_eq_some b i false e2
      rcases getElem?_bool_cases a i hlt with e | e
      · have := (m1 i).mpr (Or.inl e)
        rw [this] at e2
        exact absurd e2 (by simp)
      · exact e
  · rw [List.length_append]
    omega

theorem marks_perm (a b : List Bool) (t1 t2 : List Nat) (hp : t1.Perm t2) (h : Marks a b t1) :
    Marks a b t2 := by
  obtain ⟨l1, m1, n1, u1, c1⟩ := h
  refine ⟨l1, ?_, hp.nodup_iff.mp n1, ?_, ?_⟩
  · intro i
    rw [m1 i, hp.mem_iff]
  · intro i hi
    exact u1 i (hp.mem_iff.mpr hi)
  · rw [← hp.length_eq]
    exact c1

theorem closed_mono (g : Graph) (t : List Nat) (b c : List Bool) (t2 : List Nat)
    (h : Closed g t b) (hm : Marks b c t2) : Closed g t c := by
  intro i hi j hj
  exact marks_mono b c t2 hm j (h i hi j hj)

/-! ### The loop over the neighbours -/

theorem bind_ok {α β : Type} (a : α) (f : α → Except Fault β) :
    (Except.ok a >>= f) = f a :=
  rfl

theorem visit_marked (util : Nat → DfsState → Except Fault DfsState) (s : DfsState) (n : Nat)
    (h : s.visited[n]? = some true) : visit util s n = Except.ok s := by
  simp only [visit, readAt_of_getElem? _ _ _ h, bind_ok]
  rfl

theorem visit_unmarked (util : Nat → DfsState → Except Fault DfsState) (s : DfsState) (n : Nat)
    (h : s.visited[n]? = some false) : visit util s n = util n s := by
  simp only [visit, readAt_of_getElem? _ _ _ h, bind_ok]
  rfl

theorem reachable_refl (g : Graph) (i : Nat) : g.Reachable i i :=
  Relation.ReflTransGen.refl

theorem reachable_of_edge (g : Graph) (v n i : Nat) (he : n ∈ g.neighbors v)
    (h : g.Reachable n i) : g.Reachable v i :=
  Relation.ReflTransGen.head he h

/-- The loop `for (neighbor : ...) if (!visited[neighbor]) util(neighbor, visited)`
over indices of nodes, for a recursive function that meets `UtilSpec`. -/
theorem visit_loop (g : Graph) (util : Nat → DfsState → Except Fault DfsState) (bound : Nat)
    (hu : UtilSpec g util bound) :
    ∀ (ns : List Nat) (vis : List Bool) (out : List Int), vis.length = g.nodes.length →
      (∀ n ∈ ns, n < g.nodes.length) → vis.count false ≤ bound →
      ∃ vis1 trace,
        ns.foldlM (visit util) ⟨vis, out⟩ = Except.ok ⟨vis1, out ++ trace.map g.label⟩ ∧
        Marks vis vis1 trace ∧ Closed g trace vis1 ∧ (∀ n ∈ ns, vis1[n]? = some true) ∧
        (∀ i ∈ trace, ∃ n ∈ ns, g.Reachable n i) ∧ (ns = [] → trace = []) := by
  intro ns
  induction ns with
  | nil =>
    intro vis out _ _ _
    refine ⟨vis, [], ?_, marks_refl vis, ?_, ?_, ?_, fun _ => rfl⟩
    · simp only [List.foldlM_nil, List.map_nil, List.append_nil]
      rfl
    · intro i hi; simp at hi
    · intro n hn; simp at hn
    · intro i hi; simp at hi
  | cons n rest ih =>
    intro vis out hl hn hc
    have hnlt : n < vis.length := hl ▸ hn n (List.mem_cons_self _ _)
    have hrest : ∀ m ∈ rest, m < g.nodes.length := fun m hm => hn m (List.mem_cons_of_mem _ hm)
    rw [List.foldlM_cons]
    rcases getElem?_bool_cases vis n hnlt with hm | hm
    · rw [visit_marked util ⟨vis, out⟩ n hm, bind_ok]
      obtain ⟨vis1, trace, e, m1, c1, v1, r1, -⟩ := ih vis out hl hrest hc
      refine ⟨vis1, trace, e, m1, c1, ?_, ?_, ?_⟩
      · intro k hk
        rcases List.mem_cons.mp hk with hk | hk
        · rw [hk]; exact marks_mono _ _ _ m1 n hm
        · exact v1 k hk
      · intro i hi
        obtain ⟨k, hk, hr⟩ := r1 i hi
        exact ⟨k, List.mem_cons_of_mem _ hk, hr⟩
      · intro h; exact absurd h (List.cons_ne_nil _ _)
    · rw [visit_unmarked util ⟨vis, out⟩ n hm]
      obtain ⟨visA, tA, eA, mA, cA, hnA, rA⟩ :=
        hu n vis out hl (hn n (List.mem_cons_self _ _)) hm hc
      rw [eA, bind_ok]
      have hcA : visA.count false ≤ bound := by
        have := mA.2.2.2.2
        omega
      obtain ⟨visB, tB, eB, mB, cB, vB, rB, -⟩ :=
        ih visA (out ++ tA.map g.label) (mA.1.trans hl) hrest hcA
      refine ⟨visB, tA ++ tB, ?_, marks_trans _ _ _ _ _ mA mB, ?_, ?_, ?_, ?_⟩
      · rw [eB, List.map_append, List.append_assoc]
      · intro i hi
        rcases List.mem_append.mp hi with hi | hi
        · exact closed_mono g tA visA visB tB cA mB i hi
        · exact cB i hi
      · intro k hk
        rcases List.mem_cons.mp hk with hk | hk
        · rw [hk]
          exact marks_mono _ _ _ mB n ((mA.2.1 n).mpr (Or.inr hnA))
        · exact vB k hk
      · intro i hi
        rcases List.mem_append.mp hi with hi | hi
        · exact ⟨n, List.mem_cons_self _ _, rA i hi⟩
        · obtain ⟨k, hk, hr⟩ := rB i hi
          exact ⟨k, List.mem_cons_of_mem _ hk, hr⟩
      · intro h; exact absurd h (List.cons_ne_nil _ _)

/-! ### The traversal scheme -/

theorem dfsScheme_succ (g : Graph) (before after : List Nat → List Nat) (fuel v : Nat)
    (s : DfsState) :
    dfsScheme g before after (fuel + 1) v s =
      (markVisited s.visited v >>= fun visited =>
        readAt g.adjList v >>= fun row =>
          readAt g.nodes v >>= fun label =>
            (before row).foldlM (visit (dfsScheme g before after fuel)) ⟨visited, s.out⟩ >>=
              fun s1 => (after row).foldlM (visit (dfsScheme g before after fuel))
                ⟨s1.visited, s1.out ++ [label]⟩) :=
  rfl

theorem markVisited_lt (vis : List Bool) (v : Nat) (h : v < vis.length) :
    markVisited vis v = Except.ok (vis.set v true) := by
  simp [markVisited, h]

/-- What one call of the scheme does on an unmarked node, with the nodes marked
before and after the node itself told apart. -/
theorem dfsScheme_call (g : Graph) (before after : List Nat → List Nat) (hw : WellShaped g)
    (hs : IndexSafe g) (hsplit : ∀ r x, x ∈ before r ++ after r ↔ x ∈ r) (fuel : Nat)
    (hu : UtilSpec g (dfsScheme g before after fuel) fuel)
    (v : Nat) (vis : List Bool) (out : List Int) (hl : vis.length = g.nodes.length)
    (hv : v < g.nodes.length) (hm : vis[v]? = some false) (hc : vis.count false ≤ fuel + 1) :
    ∃ vis1 tb ta,
      dfsScheme g before after (fuel + 1) v ⟨vis, out⟩ =
        Except.ok ⟨vis1, out ++ (tb ++ v :: ta).map g.label⟩ ∧
      Marks vis vis1 (tb ++ v :: ta) ∧ Closed g (tb ++ v :: ta) vis1 ∧
      (∀ i ∈ tb ++ v :: ta, g.Reachable v i) ∧
      (before (g.neighbors v) = [] → tb = []) ∧ (after (g.neighbors v) = [] → ta = []) := by
  obtain ⟨-, hA, -, -⟩ := hw
  have hmem : ∀ x, x ∈ before (g.neighbors v) ++ after (g.neighbors v) ↔ x ∈ g.neighbors v :=
    hsplit (g.neighbors v)
  have m0 := marks_set vis v hm
  have hc0 : (vis.set v true).count false ≤ fuel := by
    have := count_false_set_true vis v hm
    omega
  have hl0 : (vis.set v true).length = g.nodes.length := by simpa using hl
  have hb : ∀ n ∈ before (g.neighbors v), n < g.nodes.length := fun n hn =>
    hs v hv n ((hmem n).mp (List.mem_append_left _ hn))
  have ha : ∀ n ∈ after (g.neighbors v), n < g.nodes.length := fun n hn =>
    hs v hv n ((hmem n).mp (List.mem_append_right _ hn))
  obtain ⟨vis1, tb, e1, m1, c1, v1, r1, n1⟩ :=
    visit_loop g _ fuel hu (before (g.neighbors v)) (vis.set v true) out hl0 hb hc0
  have hc1 : vis1.count false ≤ fuel := by
    have := m1.2.2.2.2
    omega
  obtain ⟨vis2, ta, e2, m2, c2, v2, r2, n2⟩ :=
    visit_loop g _ fuel hu (after (g.neighbors v)) vis1 (out ++ tb.map g.label ++ [g.label v])
      (m1.1.trans hl0) ha hc1
  refine ⟨vis2, tb, ta, ?_, ?_, ?_, ?_, n1, n2⟩
  · rw [dfsScheme_succ]
    simp only [markVisited_lt vis v (hl ▸ hv), bind_ok, readAt_rowAt g.adjList v (hA ▸ hv),
      readAt_intAt g.nodes v hv]
    change (before (g.neighbors v)).foldlM _ _ >>= _ = _
    rw [e1, bind_ok]
    change (after (g.neighbors v)).foldlM _ (DfsState.mk vis1 (out ++ tb.map g.label ++ [g.label v])) = _
    rw [e2]
    simp
  · have h3 := marks_trans _ _ _ _ _ (marks_trans _ _ _ _ _ m0 m1) m2
    refine marks_perm _ _ _ _ ?_ h3
    simp only [List.singleton_append, List.cons_append]
    exact List.perm_middle.symm
  · intro i hi j hj
    rcases List.mem_append.mp hi with hi | hi
    · exact marks_mono _ _ _ m2 j (c1 i hi j hj)
    · rcases List.mem_cons.mp hi with hi | hi
      · subst hi
        rcases List.mem_append.mp ((hmem j).mpr hj) with h | h
        · exact marks_mono _ _ _ m2 j (v1 j h)
        · exact v2 j h
      · exact c2 i hi j hj
  · intro i hi
    rcases List.mem_append.mp hi with hi | hi
    · obtain ⟨n, hn, hr⟩ := r1 i hi
      exact reachable_of_edge g v n i ((hmem n).mp (List.mem_append_left _ hn)) hr
    · rcases List.mem_cons.mp hi with hi | hi
      · rw [hi]; exact reachable_refl g v
      · obtain ⟨n, hn, hr⟩ := r2 i hi
        exact reachable_of_edge g v n i ((hmem n).mp (List.mem_append_right _ hn)) hr

/-- With fuel at least the number of unmarked nodes the scheme meets `UtilSpec`. -/
theorem dfsScheme_utilSpec (g : Graph) (before after : List Nat → List Nat) (hw : WellShaped g)
    (hs : IndexSafe g) (hsplit : ∀ r x, x ∈ before r ++ after r ↔ x ∈ r) (fuel : Nat) :
    UtilSpec g (dfsScheme g before after fuel) fuel := by
  induction fuel with
  | zero =>
    intro v vis out _ _ hm hc
    have := count_false_set_true vis v hm
    omega
  | succ n ih =>
    intro v vis out hl hv hm hc
    obtain ⟨vis1, tb, ta, e, m, c, r, -, -⟩ :=
      dfsScheme_call g before after hw hs hsplit n ih v vis out hl hv hm hc
    exact ⟨vis1, tb ++ v :: ta, e, m, c, by simp, r⟩

/-! ### The three traversals as instances of the scheme -/

theorem readAt_of_le {α : Type} (xs : List α) (i : Nat) (h : xs.length ≤ i) :
    readAt xs i = Except.error Fault.outOfRange := by
  simp [readAt, List.getElem?_eq_none h]

theorem bind_error {α β : Type} (e : Fault) (f : α → Except Fault β) :
    ((Except.error e : Except Fault α) >>= f) = Except.error e :=
  rfl

theorem dfsPreorderUtil_succ (g : Graph) (fuel v : Nat) (s : DfsState) :
    dfsPreorderUtil g (fuel + 1) v s =
      (markVisited s.visited v >>= fun visited =>
        readAt g.nodes v >>= fun label =>
          readAt g.adjList v >>= fun row =>
            row.foldlM (visit (dfsPreorderUtil g fuel)) ⟨visited, s.out ++ [label]⟩) :=
  rfl

theorem dfsPostorderUtil_succ (g : Graph) (fuel v : Nat) (s : DfsState) :
    dfsPostorderUtil g (fuel + 1) v s =
      (markVisited s.visited v >>= fun visited =>
        readAt g.adjList v >>= fun row =>
          row.foldlM (visit (dfsPostorderUtil g fuel)) ⟨visited, s.out⟩ >>= fun s1 =>
            readAt g.nodes v >>= fun label =>
              pure ⟨s1.visited, s1.out ++ [label]⟩) :=
  rfl

theorem dfsInorderUtil_succ (g : Graph) (fuel v : Nat) (s : DfsState) :
    dfsInorderUtil g (fuel + 1) v s =
      (markVisited s.visited v >>= fun visited =>
        readAt g.adjList v >>= fun row =>
          (List.range' 0 ((sort row).length / 2)).foldlM
              (fun s i => readAt (sort row) i >>= fun neighbor =>
                visit (dfsInorderUtil g fuel) s neighbor) ⟨visited, s.out⟩ >>= fun s1 =>
            readAt g.nodes v >>= fun label =>
              (List.range' ((sort row).length / 2)
                  ((sort row).length - (sort row).length / 2)).foldlM
                (fun s i => readAt (sort row) i >>= fun neighbor =>
                  visit (dfsInorderUtil g fuel) s neighbor)
                ⟨s1.visited, s1.out ++ [label]⟩) :=
  rfl

/-- A `for` loop over the positions `lo .. lo + n - 1` of a vector visits the
entries at these positions in order. -/
theorem foldlM_range' (xs : List Nat) (f : DfsState → Nat → Except Fault DfsState) :
    ∀ (n lo : Nat) (s : DfsState), lo + n ≤ xs.length →
      (List.range' lo n).foldlM (fun s i => readAt xs i >>= fun neighbor => f s neighbor) s =
        ((xs.drop lo).take n).foldlM f s := by
  intro n
  induction n with
  | zero => intro lo s _; simp
  | succ n ih =>
    intro lo s h
    have hlo : lo < xs.length := by omega
    rw [List.range'_succ, List.foldlM_cons, List.drop_eq_getElem_cons hlo, List.take_succ_cons,
      List.foldlM_cons, readAt_of_getElem? xs lo xs[lo] (List.getElem?_eq_getElem hlo), bind_ok]
    congr 1
    funext s1
    exact ih (lo + 1) s1 (by omega)

theorem dfsPreorderUtil_eq (g : Graph) (hA : g.adjList.length = g.nodes.length) (fuel : Nat) :
    dfsPreorderUtil g fuel = dfsScheme g (fun _ => []) id fuel := by
  induction fuel with
  | zero => rfl
  | succ n ih =>
    funext v s
    rw [dfsPreorderUtil_succ, dfsScheme_succ, ih]
    cases markVisited s.visited v with
    | error e => rfl
    | ok visited =>
      simp only [bind_ok]
      by_cases hv : v < g.nodes.length
      · simp only [readAt_rowAt g.adjList v (hA ▸ hv), readAt_intAt g.nodes v hv, bind_ok,
          List.foldlM_nil, id]
        rfl
      · simp only [readAt_of_le g.adjList v (hA ▸ Nat.le_of_not_lt hv),
          readAt_of_le g.nodes v (Nat.le_of_not_lt hv), bind_error]

theorem dfsPostorderUtil_eq (g : Graph) (hA : g.adjList.length = g.nodes.length) (fuel : Nat) :
    dfsPostorderUtil g fuel = dfsScheme g id (fun _ => []) fuel := by
  induction fuel with
  | zero => rfl
  | succ n ih =>
    funext v s
    rw [dfsPostorderUtil_succ, dfsScheme_succ, ih]
    cases markVisited s.visited v with
    | error e => rfl
    | ok visited =>
      simp only [bind_ok]
      by_cases hv : v < g.nodes.length
      · simp only [readAt_rowAt g.adjList v (hA ▸ hv), readAt_intAt g.nodes v hv, bind_ok,
          List.foldlM_nil, id]
      · simp only [readAt_of_le g.adjList v (hA ▸ Nat.le_of_not_lt hv), bind_error]

theorem dfsInorderUtil_eq (g : Graph) (hA : g.adjList.length = g.nodes.length) (fuel : Nat) :
    dfsInorderUtil g fuel = dfsScheme g lowerHalf upperHalf fuel := by
  induction fuel with
  | zero => rfl
  | succ n ih =>
    funext v s
    rw [dfsInorderUtil_succ, dfsScheme_succ, ih]
    cases markVisited s.visited v with
    | error e => rfl
    | ok visited =>
      simp only [bind_ok]
      by_cases hv : v < g.nodes.length
      · simp only [readAt_rowAt g.adjList v (hA ▸ hv), readAt_intAt g.nodes v hv, bind_ok]
        rw [foldlM_range' _ _ _ 0 _ (by omega)]
        have e1 : ((sort (rowAt g.adjList v)).drop 0).take ((sort (rowAt g.adjList v)).length / 2)
            = lowerHalf (rowAt g.adjList v) := by
          simp [lowerHalf]
        rw [e1]
        congr 1
        funext s1
        rw [foldlM_range' _ _ _ _ _ (by omega)]
        have e2 : ((sort (rowAt g.adjList v)).drop ((sort (rowAt g.adjList v)).length / 2)).take
            ((sort (rowAt g.adjList v)).length - (sort (rowAt g.adjList v)).length / 2)
            = upperHalf (rowAt g.adjList v) := by
          rw [upperHalf, List.take_of_length_le (by simp)]
        rw [e2]
      · simp only [readAt_of_le g.adjList v (hA ▸ Nat.le_of_not_lt hv), bind_error]

/-! ### Graphs built by `addEdge` -/

theorem intAt_find (nodes : List Int) (x : Int) (h : x ∈ nodes) :
    intAt nodes (find nodes x) = x := by
  induction nodes with
  | nil => simp at h
  | cons a rest ih =>
    simp only [find]
    split
    · rename_i e
      simp [intAt, e]
    · rename_i hne
      have hx : x ∈ rest := by
        rcases List.mem_cons.mp h with h1 | h1
        · exact absurd h1.symm hne
        · exact h1
      have := ih hx
      simpa [intAt] using this

theorem find_intAt_find (nodes : List Int) (x : Int) (h : x ∈ nodes) :
    find nodes (intAt nodes (find nodes x)) = find nodes x := by
  rw [intAt_find nodes x h]

theorem mem_of_find_lt (nodes : List Int) (x : Int) (h : find nodes x < nodes.length) :
    x ∈ nodes := by
  induction nodes with
  | nil => simp at h
  | cons a rest ih =>
    simp only [find] at h
    split at h
    · rename_i e
      simp [e]
    · simp only [List.length_cons, Nat.add_lt_add_iff_right] at h
      exact List.mem_cons_of_mem _ (ih h)

theorem rowAt_of_le {α : Type} (rows : List (List α)) (i : Nat) (h : rows.length ≤ i) :
    rowAt rows i = [] := by
  simp [rowAt, List.getElem?_eq_none h]

theorem new_indexSafe (nodes : List Int) : IndexSafe (new nodes) := by
  intro i hi k hk
  rw [new_neighbors nodes i hi] at hk
  simp at hk

theorem new_firstMatch (nodes : List Int) : FirstMatch (new nodes) := by
  intro i k hk
  by_cases hi : i < nodes.length
  · rw [new_neighbors nodes i hi] at hk
    simp at hk
  · have : (new nodes).neighbors i = [] :=
      rowAt_of_le _ _ (by simpa [new] using Nat.le_of_not_lt hi)
    rw [this] at hk
    simp at hk

theorem addEdge_safe (g g1 : Graph) (u v : Int) (hw : WellShaped g) (hs : IndexSafe g)
    (hf : FirstMatch g) (h : g.addEdge u v = some g1) : IndexSafe g1 ∧ FirstMatch g1 := by
  obtain ⟨hu, hv⟩ := addEdge_index_lt g g1 u v hw h
  obtain ⟨g2, h2, hn, -, hnb, -⟩ := addEdge_some g u v hw hu hv
  rw [h2] at h
  cases h
  have hum : u ∈ g.nodes := mem_of_find_lt _ _ hu
  have hvm : v ∈ g.nodes := mem_of_find_lt _ _ hv
  have key : ∀ i, ∀ k ∈ g1.neighbors i,
      k ∈ g.neighbors i ∨ k = g.getNodeIndex u ∨ k = g.getNodeIndex v := by
    intro i k hk
    rw [hnb i] at hk
    simp only [List.mem_append] at hk
    rcases hk with (hk | hk) | hk
    · exact Or.inl hk
    · split at hk
      · simp at hk; exact Or.inr (Or.inr hk)
      · simp at hk
    · split at hk
      · simp at hk; exact Or.inr (Or.inl hk)
      · simp at hk
  constructor
  · intro i hi k hk
    rw [hn] at hi ⊢
    rcases key i k hk with h1 | h1 | h1
    · exact hs i hi k h1
    · rw [h1]; exact hu
    · rw [h1]; exact hv
  · intro i k hk
    simp only [label, hn]
    rcases key i k hk with h1 | h1 | h1
    · exact hf i k h1
    · rw [h1]; exact find_intAt_find _ _ hum
    · rw [h1]; exact find_intAt_find _ _ hvm

/-- A graph built by the constructor and `addEdge` calls keeps the node list, is
well shaped, and its adjacency lists hold indices of nodes only. -/
theorem addEdges_safe (es : List (Int × Int)) : ∀ (g g1 : Graph), WellShaped g →
    IndexSafe g → FirstMatch g → addEdges g es = some g1 →
    g1.nodes = g.nodes ∧ WellShaped g1 ∧ IndexSafe g1 ∧ FirstMatch g1 := by
  induction es with
  | nil =>
    intro g g1 hw hs hf h
    simp only [addEdges, Option.some.injEq] at h
    subst h
    exact ⟨rfl, hw, hs, hf⟩
  | cons e rest ih =>
    intro g g1 hw hs hf h
    obtain ⟨u, v⟩ := e
    simp only [addEdges] at h
    cases hg : g.addEdge u v with
    | none => simp [hg] at h
    | some g2 =>
      rw [hg] at h
      obtain ⟨hn2, hw2⟩ := addEdge_wellShaped g g2 u v hw hg
      obtain ⟨hs2, hf2⟩ := addEdge_safe g g2 u v hw hs hf hg
      obtain ⟨hn1, hw1, hs1, hf1⟩ := ih g2 g1 hw2 hs2 hf2 h
      exact ⟨hn1.trans hn2, hw1, hs1, hf1⟩

theorem built_safe (nodes : List Int) (es : List (Int × Int)) (g : Graph)
    (h : addEdges (new nodes) es = some g) :
    g.nodes = nodes ∧ WellShaped g ∧ IndexSafe g ∧ FirstMatch g :=
  addEdges_safe es (new nodes) g (new_wellShaped nodes) (new_indexSafe nodes)
    (new_firstMatch nodes) h

/-! ### A traversal from the start node -/

theorem getElem?_replicate_false (n i : Nat) : (List.replicate n false)[i]? ≠ some true := by
  rw [List.getElem?_replicate]
  split <;> simp

/-- The scheme, started on a fresh vector `visited` with `numNodes` as fuel,
returns and has written the labels of exactly the nodes reachable from the
start node, each once. -/
theorem dfsScheme_top (g : Graph) (before after : List Nat → List Nat) (hw : WellShaped g)
    (hs : IndexSafe g) (hsplit : ∀ r x, x ∈ before r ++ after r ↔ x ∈ r) (v : Nat)
    (hv : v < g.nodes.length) :
    ∃ vis1 tb ta,
      dfsScheme g before after g.numNodes v ⟨List.replicate g.numNodes false, []⟩ =
        Except.ok ⟨vis1, (tb ++ v :: ta).map g.label⟩ ∧
      (tb ++ v :: ta).Nodup ∧ (∀ i, i ∈ tb ++ v :: ta ↔ g.Reachable v i) ∧
      (before (g.neighbors v) = [] → tb = []) ∧ (after (g.neighbors v) = [] → ta = []) := by
  rw [hw.1]
  obtain ⟨n, hn⟩ : ∃ n, g.nodes.length = n + 1 := ⟨g.nodes.length - 1, by omega⟩
  have hm : (List.replicate g.nodes.length false)[v]? = some false := by
    rw [List.getElem?_replicate, if_pos hv]
  have hc : (List.replicate g.nodes.length false).count false ≤ n + 1 := by
    simp [hn]
  obtain ⟨vis1, tb, ta, e, m, c, r, n1, n2⟩ :=
    dfsScheme_call g before after hw hs hsplit n
      (dfsScheme_utilSpec g before after hw hs hsplit n) v
      (List.replicate g.nodes.length false) [] (by simp) hv hm hc
  refine ⟨vis1, tb, ta, ?_, m.2.2.1, ?_, n1, n2⟩
  · rw [hn] at e ⊢
    simpa using e
  · intro i
    constructor
    · exact r i
    · intro hr
      induction hr with
      | refl => simp
      | tail _ hedge ih =>
        rcases (m.2.1 _).mp (c _ ih _ hedge) with h | h
        · exact absurd h (getElem?_replicate_false _ _)
        · exact h

theorem split_pre (r : List Nat) (x : Nat) : x ∈ (fun _ : List Nat => ([] : List Nat)) r ++ id r ↔ x ∈ r := by
  simp

theorem split_post (r : List Nat) (x : Nat) : x ∈ id r ++ (fun _ : List Nat => ([] : List Nat)) r ↔ x ∈ r := by
  simp

theorem sort_sorted_perm (xs : List Nat) :
    (sort xs).Sorted (· ≤ ·) ∧ (sort xs).Perm xs :=
  ⟨List.sorted_insertionSort (· ≤ ·) xs, List.perm_insertionSort (· ≤ ·) xs⟩

theorem mem_sort (r : List Nat) (x : Nat) : x ∈ sort r ↔ x ∈ r :=
  (List.perm_insertionSort (· ≤ ·) r).mem_iff

theorem split_inorder (r : List Nat) (x : Nat) : x ∈ lowerHalf r ++ upperHalf r ↔ x ∈ r := by
  rw [lowerHalf, upperHalf, List.take_append_drop]
  exact mem_sort r x

/-- What `dfsPreorder` writes: the label of the start node, then the labels of
further nodes, all together the reachable nodes, each once. -/
theorem dfsPreorder_trace (g : Graph) (hw : WellShaped g) (hs : IndexSafe g) (start : Int)
    (hstart : start ∈ g.nodes) :
    ∃ ta, g.dfsPreorder start =
        Except.ok ((g.getNodeIndex start :: ta).map g.label) ∧
      (g.getNodeIndex start :: ta).Nodup ∧
      ∀ i, i ∈ g.getNodeIndex start :: ta ↔ g.Reachable (g.getNodeIndex start) i := by
  obtain ⟨vis1, tb, ta, e, nd, r, n1, -⟩ :=
    dfsScheme_top g (fun _ => []) id hw hs split_pre (g.getNodeIndex start)
      (find_lt_of_mem _ _ hstart)
  have htb := n1 rfl
  subst htb
  refine ⟨ta, ?_, nd, r⟩
  unfold dfsPreorder
  rw [dfsPreorderUtil_eq g hw.2.1]
  dsimp only
  rw [e]
  rfl

/-- What `dfsPostorder` writes: labels of nodes and last the label of the start
node, all together the reachable nodes, each once. -/
theorem dfsPostorder_trace (g : Graph) (hw : WellShaped g) (hs : IndexSafe g) (start : Int)
    (hstart : start ∈ g.nodes) :
    ∃ tb, g.dfsPostorder start =
        Except.ok ((tb ++ [g.getNodeIndex start]).map g.label) ∧
      (tb ++ [g.getNodeIndex start]).Nodup ∧
      ∀ i, i ∈ tb ++ [g.getNodeIndex start] ↔ g.Reachable (g.getNodeIndex start) i := by
  obtain ⟨vis1, tb, ta, e, nd, r, -, n2⟩ :=
    dfsScheme_top g id (fun _ => []) hw hs split_post (g.getNodeIndex start)
      (find_lt_of_mem _ _ hstart)
  have hta := n2 rfl
  subst hta
  refine ⟨tb, ?_, nd, r⟩
  unfold dfsPostorder
  rw [dfsPostorderUtil_eq g hw.2.1]
  dsimp only
  rw [e]
  rfl

/-- What `dfsInorder` writes: the labels of the reachable nodes, each once. -/
theorem dfsInorder_trace (g : Graph) (hw : WellShaped g) (hs : IndexSafe g) (start : Int)
    (hstart : start ∈ g.nodes) :
    ∃ trace : List Nat, g.dfsInorder start = Except.ok (trace.map g.label) ∧ trace.Nodup ∧
      ∀ i, i ∈ trace ↔ g.Reachable (g.getNodeIndex start) i := by
  obtain ⟨vis1, tb, ta, e, nd, r, -, -⟩ :=
    dfsScheme_top g lowerHalf upperHalf hw hs split_inorder (g.getNodeIndex start)
      (find_lt_of_mem _ _ hstart)
  refine ⟨tb ++ g.getNodeIndex start :: ta, ?_, nd, r⟩
  unfold dfsInorder
  rw [dfsInorderUtil_eq g hw.2.1]
  dsimp only
  rw [e]
  rfl

/-- A node reachable from a start node found by `getNodeIndex` sits at the first
position of its label, so reachable nodes have pairwise different labels. -/
theorem reachable_firstMatch (g : Graph) (hf : FirstMatch g) (start : Int)
    (hstart : start ∈ g.nodes) (i : Nat) (h : g.Reachable (g.getNodeIndex start) i) :
    find g.nodes (g.label i) = i := by
  cases h with
  | refl => exact find_intAt_find _ _ hstart
  | tail _ hedge => exact hf _ i hedge

theorem labels_nodup (g : Graph) (hf : FirstMatch g) (start : Int) (hstart : start ∈ g.nodes)
    (trace : List Nat) (hn : trace.Nodup)
    (hr : ∀ i ∈ trace, g.Reachable (g.getNodeIndex start) i) : (trace.map g.label).Nodup := by
  apply List.Nodup.map_on _ hn
  intro i hi j hj hij
  rw [← reachable_firstMatch g hf start hstart i (hr i hi),
    ← reachable_firstMatch g hf start hstart j (hr j hj), hij]

/-! ### The claims about the traversals -/

/-- Claim C11 (preorder and postorder visit the reachable nodes).  For a graph
built by the constructor and `addEdge` calls and a known start label,
`dfsPreorder(start)` and `dfsPostorder(start)` both return; each writes the labels
of a list of nodes in which every node reachable from the start node occurs
exactly once and no other node occurs; the labels written are pairwise different
and the two outputs are permutations of each other. -/
theorem dfs_visits_reachable (nodes : List Int) (es : List (Int × Int)) (g : Graph)
    (hg : addEdges (new nodes) es = some g) (start : Int) (hstart : start ∈ nodes) :
    ∃ pre post : List Nat,
      g.dfsPreorder start = Except.ok (pre.map g.label) ∧
      g.dfsPostorder start = Except.ok (post.map g.label) ∧
      pre.Nodup ∧ post.Nodup ∧
      (∀ i, i ∈ pre ↔ g.Reachable (g.getNodeIndex start) i) ∧
      (∀ i, i ∈ post ↔ g.Reachable (g.getNodeIndex start) i) ∧
      (pre.map g.label).Nodup ∧ (post.map g.label).Nodup ∧
      (pre.map g.label).Perm (post.map g.label) := by
  obtain ⟨hn, hw, hs, hf⟩ := built_safe nodes es g hg
  have hst : start ∈ g.nodes := hn ▸ hstart
  obtain ⟨ta, e1, n1, r1⟩ := dfsPreorder_trace g hw hs start hst
  obtain ⟨tb, e2, n2, r2⟩ := dfsPostorder_trace g hw hs start hst
  refine ⟨_, _, e1, e2, n1, n2, r1, r2,
    labels_nodup g hf start hst _ n1 (fun i hi => (r1 i).mp hi),
    labels_nodup g hf start hst _ n2 (fun i hi => (r2 i).mp hi), ?_⟩
  apply List.Perm.map
  rw [List.perm_ext_iff_of_nodup n1 n2]
  intro i
  rw [r1 i, r2 i]

/-- Claim C11 on a graph with a cycle, a self-loop, a repeated edge and a second
component, from the label 30. -/
theorem dfs_visits_reachable_witness :
    addEdges (new [10, 20, 30, 40, 50])
        [(10, 20), (20, 30), (30, 10), (20, 20), (10, 20), (40, 50)] = some example2 ∧
      (30 : Int) ∈ [(10 : Int), 20, 30, 40, 50] ∧
      ∃ pre post : List Nat,
        example2.dfsPreorder 30 = Except.ok (pre.map example2.label) ∧
        example2.dfsPostorder 30 = Except.ok (post.map example2.label) ∧
        pre.Nodup ∧ post.Nodup ∧
        (∀ i, i ∈ pre ↔ example2.Reachable (example2.getNodeIndex 30) i) ∧
        (∀ i, i ∈ post ↔ example2.Reachable (example2.getNodeIndex 30) i) ∧
        (pre.map example2.label).Nodup ∧ (post.map example2.label).Nodup ∧
        (pre.map example2.label).Perm (post.map example2.label) :=
  ⟨by decide, by decide,
    dfs_visits_reachable [10, 20, 30, 40, 50]
      [(10, 20), (20, 30), (30, 10), (20, 20), (10, 20), (40, 50)] example2 (by decide) 30
      (by decide)⟩

/-- Claim C12 (example graph).  On the graph with nodes 0 .. 5 and the edges
(0,1), (0,2), (1,3), (1,4), (2,5) added in this order, `dfsPreorder(0)` writes
0, 1, 3, 4, 2, 5. -/
theorem dfsPreorder_example :
    example1.map (fun g => g.dfsPreorder 0) = some (Except.ok [0, 1, 3, 4, 2, 5]) := by
  rfl

/-- Claim C18 (position of the start node).  For a graph built by the constructor
and `addEdge` calls and a known start label, the first label written by
`dfsPreorder(start)` is `start` and the last label written by
`dfsPostorder(start)` is `start`. -/
theorem start_position (nodes : List Int) (es : List (Int × Int)) (g : Graph)
    (hg : addEdges (new nodes) es = some g) (start : Int) (hstart : start ∈ nodes) :
    ∃ after before : List Int,
      g.dfsPreorder start = Except.ok (start :: after) ∧
      g.dfsPostorder start = Except.ok (before ++ [start]) := by
  obtain ⟨hn, hw, hs, -⟩ := built_safe nodes es g hg
  have hst : start ∈ g.nodes := hn ▸ hstart
  obtain ⟨ta, e1, -, -⟩ := dfsPreorder_trace g hw hs start hst
  obtain ⟨tb, e2, -, -⟩ := dfsPostorder_trace g hw hs start hst
  have hl : g.label (g.getNodeIndex start) = start := intAt_find g.nodes start hst
  refine ⟨ta.map g.label, tb.map g.label, ?_, ?_⟩
  · rw [e1, List.map_cons, hl]
  · rw [e2, List.map_append, List.map_singleton, hl]

/-- Claim C18 on the graph with a cycle, from the label 20. -/
theorem start_position_witness :
    addEdges (new [10, 20, 30, 40, 50])
        [(10, 20), (20, 30), (30, 10), (20, 20), (10, 20), (40, 50)] = some example2 ∧
      (20 : Int) ∈ [(10 : Int), 20, 30, 40, 50] ∧
      ∃ after before : List Int,
        example2.dfsPreorder 20 = Except.ok (20 :: after) ∧
        example2.dfsPostorder 20 = Except.ok (before ++ [20]) :=
  ⟨by decide, by decide,
    start_position [10, 20, 30, 40, 50]
      [(10, 20), (20, 30), (30, 10), (20, 20), (10, 20), (40, 50)] example2 (by decide) 20
      (by decide)⟩

/-- Claim C19 (the simulated inorder visits the reachable nodes).  For a graph
built by the constructor and `addEdge` calls and a known start label,
`dfsInorder(start)` returns and writes the labels of a list of nodes in which
every node reachable from the start node occurs exactly once and no other node
occurs; its output is a permutation of the output of `dfsPreorder(start)`. -/
theorem dfsInorder_visits_reachable (nodes : List Int) (es : List (Int × Int)) (g : Graph)
    (hg : addEdges (new nodes) es = some g) (start : Int) (hstart : start ∈ nodes) :
    ∃ (trace : List Nat) (pre : List Int),
      g.dfsInorder start = Except.ok (trace.map g.label) ∧ trace.Nodup ∧
      (∀ i, i ∈ trace ↔ g.Reachable (g.getNodeIndex start) i) ∧
      (trace.map g.label).Nodup ∧
      g.dfsPreorder start = Except.ok pre ∧ (trace.map g.label).Perm pre := by
  obtain ⟨hn, hw, hs, hf⟩ := built_safe nodes es g hg
  have hst : start ∈ g.nodes := hn ▸ hstart
  obtain ⟨ta, e1, n1, r1⟩ := dfsPreorder_trace g hw hs start hst
  obtain ⟨tr, e2, n2, r2⟩ := dfsInorder_trace g hw hs start hst
  refine ⟨tr, _, e2, n2, r2, labels_nodup g hf start hst _ n2 (fun i hi => (r2 i).mp hi),
    e1, ?_⟩
  apply List.Perm.map
  rw [List.perm_ext_iff_of_nodup n2 n1]
  intro i
  rw [r1 i, r2 i]

/-- Claim C19 on the graph with a cycle, from the label 10. -/
theorem dfsInorder_visits_reachable_witness :
    addEdges (new [10, 20, 30, 40, 50])
        [(10, 20), (20, 30), (30, 10), (20, 20), (10, 20), (40, 50)] = some example2 ∧
      (10 : Int) ∈ [(10 : Int), 20, 30, 40, 50] ∧
      ∃ (trace : List Nat) (pre : List Int),
        example2.dfsInorder 10 = Except.ok (trace.map example2.label) ∧ trace.Nodup ∧
        (∀ i, i ∈ trace ↔ example2.Reachable (example2.getNodeIndex 10) i) ∧
        (trace.map example2.label).Nodup ∧
        example2.dfsPreorder 10 = Except.ok pre ∧ (trace.map example2.label).Perm pre :=
  ⟨by decide, by decide,
    dfsInorder_visits_reachable [10, 20, 30, 40, 50]
      [(10, 20), (20, 30), (30, 10), (20, 20), (10, 20), (40, 50)] example2 (by decide) 10
      (by decide)⟩

/-- Claim C20 (index safety).  For a graph built by the constructor and `addEdge`
calls with `N` nodes, every entry of every `adjList[i]` is below `N`, the vectors
`adjList` and `visited` have `N` elements, and from a known start label the
three traversals return: no access of theirs falls outside a vector. -/
theorem index_safety (nodes : List Int) (es : List (Int × Int)) (g : Graph)
    (hg : addEdges (new nodes) es = some g) (start : Int) (hstart : start ∈ nodes) :
    (∀ row ∈ g.adjList, ∀ k ∈ row, k < nodes.length) ∧
      g.adjList.length = nodes.length ∧ g.nodes.length = nodes.length ∧
      g.numNodes = nodes.length ∧ g.getNodeIndex start < nodes.length ∧
      ∃ pre post ino : List Int, g.dfsPreorder start = Except.ok pre ∧
        g.dfsPostorder start = Except.ok post ∧ g.dfsInorder start = Except.ok ino := by
  obtain ⟨hn, hw, hs, -⟩ := built_safe nodes es g hg
  have hst : start ∈ g.nodes := hn ▸ hstart
  obtain ⟨ta, e1, -, -⟩ := dfsPreorder_trace g hw hs start hst
  obtain ⟨tb, e2, -, -⟩ := dfsPostorder_trace g hw hs start hst
  obtain ⟨tr, e3, -, -⟩ := dfsInorder_trace g hw hs start hst
  refine ⟨?_, hn ▸ hw.2.1, by rw [hn], hn ▸ hw.1, hn ▸ find_lt_of_mem _ _ hst,
    _, _, _, e1, e2, e3⟩
  intro row hrow k hk
  obtain ⟨i, hi, rfl⟩ := List.getElem_of_mem hrow
  have hi2 : i < g.nodes.length := hw.2.1 ▸ hi
  rw [← hn]
  apply hs i hi2 k
  simpa [neighbors, rowAt, List.getElem?_eq_getElem hi] using hk

/-- Claim C20 on the graph with a cycle, from the label 50. -/
theorem index_safety_witness :
    addEdges (new [10, 20, 30, 40, 50])
        [(10, 20), (20, 30), (30, 10), (20, 20), (10, 20), (40, 50)] = some example2 ∧
      (50 : Int) ∈ [(10 : Int), 20, 30, 40, 50] ∧
      (∀ row ∈ example2.adjList, ∀ k ∈ row, k < 5) ∧
      ∃ pre post ino : List Int, example2.dfsPreorder 50 = Except.ok pre ∧
        example2.dfsPostorder 50 = Except.ok post ∧ example2.dfsInorder 50 = Except.ok ino :=
  ⟨by decide, by decide,
    (index_safety [10, 20, 30, 40, 50]
      [(10, 20), (20, 30), (30, 10), (20, 20), (10, 20), (40, 50)] example2 (by decide) 50
      (by decide)).1,
    (index_safety [10, 20, 30, 40, 50]
      [(10, 20), (20, 30), (30, 10), (20, 20), (10, 20), (40, 50)] example2 (by decide) 50
      (by decide)).2.2.2.2.2⟩

/-! ### Label resolution and repeated entries -/

theorem find_of_not_mem (nodes : List Int) (x : Int) (h : x ∉ nodes) :
    find nodes x = nodes.length := by
  induction nodes with
  | nil => rfl
  | cons a rest ih =>
    have h1 : ¬ a = x := fun e => h (e ▸ List.mem_cons_self _ _)
    have h2 : x ∉ rest := fun e => h (List.mem_cons_of_mem _ e)
    simp [find, h1, ih h2]

theorem find_min (nodes : List Int) (x : Int) (j : Nat) (h : j < find nodes x) :
    nodes[j]? ≠ some x := by
  induction nodes generalizing j with
  | nil => simp
  | cons a rest ih =>
    simp only [find] at h
    split at h
    · exact absurd h (Nat.not_lt_zero _)
    · rename_i hne
      cases j with
      | zero => simpa using hne
      | succ k =>
        simp only [List.getElem?_cons_succ]
        exact ih k (by omega)

theorem getElem?_find (nodes : List Int) (x : Int) (h : x ∈ nodes) :
    nodes[find nodes x]? = some x := by
  have hlt := find_lt_of_mem nodes x h
  have := intAt_find nodes x h
  rw [List.getElem?_eq_getElem hlt]
  simpa [intAt, List.getElem?_eq_getElem hlt] using this

theorem find_inj (nodes : List Int) (x y : Int) (hx : x ∈ nodes) (hy : y ∈ nodes)
    (h : find nodes x = find nodes y) : x = y := by
  rw [← intAt_find nodes x hx, ← intAt_find nodes y hy, h]

/-- Claim C14 (label resolution).  When `x` occurs in the node list,
`getNodeIndex(x)` is an index below `N` with `nodes[i] == x` and no smaller index
holds `x`; when `x` does not occur, `getNodeIndex(x)` is `N = nodes.size()`. -/
theorem getNodeIndex_first_match (g : Graph) (x : Int) :
    (x ∈ g.nodes → g.getNodeIndex x < g.nodes.length ∧
        g.nodes[g.getNodeIndex x]? = some x ∧
        ∀ j, j < g.getNodeIndex x → g.nodes[j]? ≠ some x) ∧
      (x ∉ g.nodes → g.getNodeIndex x = g.nodes.length ∧
        g.nodes[g.getNodeIndex x]? = none) := by
  constructor
  · intro h
    exact ⟨find_lt_of_mem _ _ h, getElem?_find _ _ h, fun j hj => find_min _ _ j hj⟩
  · intro h
    have e : g.getNodeIndex x = g.nodes.length := find_of_not_mem _ _ h
    exact ⟨e, by rw [e]; exact List.getElem?_eq_none (Nat.le_refl _)⟩

/-- Claim C14 on the node list 5, 7, 5, 7: the label 7 resolves to index 1, the
absent label 9 to index 4. -/
theorem getNodeIndex_first_match_witness :
    ((7 : Int) ∈ (new [5, 7, 5, 7]).nodes ∧ (new [5, 7, 5, 7]).getNodeIndex 7 = 1 ∧
        (new [5, 7, 5, 7]).nodes[(new [5, 7, 5, 7]).getNodeIndex 7]? = some 7 ∧
        ∀ j, j < (new [5, 7, 5, 7]).getNodeIndex 7 → (new [5, 7, 5, 7]).nodes[j]? ≠ some 7) ∧
      ((9 : Int) ∉ (new [5, 7, 5, 7]).nodes ∧ (new [5, 7, 5, 7]).getNodeIndex 9 = 4) :=
  ⟨⟨by decide, by decide,
      ((getNodeIndex_first_match (new [5, 7, 5, 7]) 7).1 (by decide)).2.1,
      ((getNodeIndex_first_match (new [5, 7, 5, 7]) 7).1 (by decide)).2.2⟩,
    by decide, ((getNodeIndex_first_match (new [5, 7, 5, 7]) 9).2 (by decide)).1⟩

theorem neighbors_symm (g : Graph) (hc : Consistent g) (i j : Nat) (hi : i < g.nodes.length)
    (hj : j < g.nodes.length) (h : j ∈ g.neighbors i) : i ∈ g.neighbors j := by
  obtain ⟨c1, -, c3⟩ := hc i j hi hj
  obtain ⟨d1, -, -⟩ := hc j i hj hi
  rw [← d1, ← c3]
  exact c1.mpr h

/-- A sequence of `addEdge` calls that joins no node to itself and no pair of
nodes already joined keeps the adjacency lists free of repetitions. -/
theorem addEdges_nodup (es : List (Int × Int)) : ∀ (g : Graph), WellShaped g → Consistent g →
    (∀ i, (g.neighbors i).Nodup) →
    (∀ e ∈ es, e.1 ∈ g.nodes ∧ e.2 ∈ g.nodes) → (∀ e ∈ es, e.1 ≠ e.2) →
    es.Pairwise (fun e f => ¬ (e.1 = f.1 ∧ e.2 = f.2) ∧ ¬ (e.1 = f.2 ∧ e.2 = f.1)) →
    (∀ e ∈ es, g.getNodeIndex e.2 ∉ g.neighbors (g.getNodeIndex e.1)) →
    ∃ g1, addEdges g es = some g1 ∧ ∀ i, (g1.neighbors i).Nodup := by
  induction es with
  | nil =>
    intro g _ _ hnd _ _ _ _
    exact ⟨g, rfl, hnd⟩
  | cons e rest ih =>
    intro g hw hc hnd hk hloop hpair hfresh
    obtain ⟨u, v⟩ := e
    obtain ⟨hu, hv⟩ := hk (u, v) (List.mem_cons_self _ _)
    have hui := find_lt_of_mem _ _ hu
    have hvi := find_lt_of_mem _ _ hv
    have huv : g.getNodeIndex u ≠ g.getNodeIndex v := fun e =>
      hloop (u, v) (List.mem_cons_self _ _) (find_inj _ _ _ hu hv e)
    have hf1 : g.getNodeIndex v ∉ g.neighbors (g.getNodeIndex u) :=
      hfresh (u, v) (List.mem_cons_self _ _)
    have hf2 : g.getNodeIndex u ∉ g.neighbors (g.getNodeIndex v) := fun h =>
      hf1 (neighbors_symm g hc _ _ hvi hui h)
    obtain ⟨g2, h2, hn2, -, hnb, -⟩ := addEdge_some g u v hw hui hvi
    obtain ⟨-, hw2, hc2⟩ := addEdge_consistent g g2 u v hw hc h2
    have hidx : ∀ x, g2.getNodeIndex x = g.getNodeIndex x := fun x => by
      simp only [getNodeIndex, hn2]
    rw [List.pairwise_cons] at hpair
    obtain ⟨hhead, htail⟩ := hpair
    have hnd2 : ∀ i, (g2.neighbors i).Nodup := by
      intro i
      rw [hnb i]
      by_cases h1 : i = g.getNodeIndex u
      · have h3 : ¬ i = g.getNodeIndex v := fun e => huv (h1.symm.trans e)
        rw [if_pos h1, if_neg h3, List.append_nil]
        rw [List.nodup_append]
        refine ⟨hnd i, List.nodup_singleton _, ?_⟩
        intro k hk1 hk2
        rw [List.mem_singleton] at hk2
        rw [hk2, h1] at hk1
        exact hf1 hk1
      · rw [if_neg h1, List.append_nil]
        by_cases h3 : i = g.getNodeIndex v
        · rw [if_pos h3, List.nodup_append]
          refine ⟨hnd i, List.nodup_singleton _, ?_⟩
          intro k hk1 hk2
          rw [List.mem_singleton] at hk2
          rw [hk2, h3] at hk1
          exact hf2 hk1
        · rw [if_neg h3, List.append_nil]
          exact hnd i
    have hk2 : ∀ e ∈ rest, e.1 ∈ g2.nodes ∧ e.2 ∈ g2.nodes := fun e he => by
      rw [hn2]; exact hk e (List.mem_cons_of_mem _ he)
    have hfresh2 : ∀ e ∈ rest, g2.getNodeIndex e.2 ∉ g2.neighbors (g2.getNodeIndex e.1) := by
      intro e he hmem
      obtain ⟨he1, he2⟩ := hk e (List.mem_cons_of_mem _ he)
      obtain ⟨d1, d2⟩ := hhead e he
      rw [hidx, hidx, hnb] at hmem
      simp only [List.mem_append] at hmem
      rcases hmem with (hm | hm) | hm
      · exact hfresh e (List.mem_cons_of_mem _ he) hm
      · split at hm
        · rename_i e1
          simp only [List.mem_singleton] at hm
          exact d1 ⟨(find_inj _ _ _ he1 hu e1).symm, (find_inj _ _ _ he2 hv hm).symm⟩
        · simp at hm
      · split at hm
        · rename_i e1
          simp only [List.mem_singleton] at hm
          exact d2 ⟨(find_inj _ _ _ he2 hu hm).symm, (find_inj _ _ _ he1 hv e1).symm⟩
        · simp at hm
    obtain ⟨g1, h1, hnd1⟩ := ih g2 hw2 hc2 hnd2 hk2
      (fun e he => hloop e (List.mem_cons_of_mem _ he)) htail hfresh2
    refine ⟨g1, ?_, hnd1⟩
    simp only [addEdges, h2, Option.some_bind]
    exact h1

/-- Claim C13 as stated fails: `addEdge` always appends, so adding the edge (0,1)
twice stores the index 1 twice in `adjList[0]`, and adding the edge (0,0) stores
the index 0 twice in `adjList[0]`. -/
theorem adjacency_repeats :
    (∃ g, addEdges (new [0, 1]) [(0, 1), (0, 1)] = some g ∧ g.neighbors 0 = [1, 1] ∧
        ¬ (g.neighbors 0).Nodup) ∧
      (∃ g, addEdges (new [0, 1]) [(0, 0)] = some g ∧ g.neighbors 0 = [0, 0] ∧
        ¬ (g.neighbors 0).Nodup) :=
  ⟨⟨⟨2, [[1, 1], [0, 0]], [[0, 1], [1, 0]], [0, 1]⟩, by decide, by decide, by decide⟩,
    ⟨⟨2, [[0, 0], []], [[1, 0], [0, 0]], [0, 1]⟩, by decide, by decide, by decide⟩⟩

/-- Claim C13, amended.  After a sequence of `addEdge` calls with known labels in
which no call joins a node to itself and no two calls join the same pair of nodes,
in either order, no neighbour index occurs more than once in `adjList[i]`, for
every node index `i`. -/
theorem adjacency_nodup_of_simple (nodes : List Int) (es : List (Int × Int))
    (hk : ∀ e ∈ es, e.1 ∈ nodes ∧ e.2 ∈ nodes) (hloop : ∀ e ∈ es, e.1 ≠ e.2)
    (hpair : es.Pairwise
      (fun e f => ¬ (e.1 = f.1 ∧ e.2 = f.2) ∧ ¬ (e.1 = f.2 ∧ e.2 = f.1))) :
    ∃ g, addEdges (new nodes) es = some g ∧ ∀ i, (g.neighbors i).Nodup := by
  apply addEdges_nodup es (new nodes) (new_wellShaped nodes) (new_consistent nodes) _ hk hloop
    hpair
  · intro e he hmem
    have := new_neighbors nodes _ (find_lt_of_mem nodes e.1 (hk e he).1)
    rw [getNodeIndex] at hmem
    change getNodeIndex _ _ ∈ (new nodes).neighbors (find nodes e.1) at hmem
    rw [this] at hmem
    simp at hmem
  · intro i
    by_cases hi : i < nodes.length
    · rw [new_neighbors nodes i hi]; exact List.nodup_nil
    · have : (new nodes).neighbors i = [] :=
        rowAt_of_le _ _ (by simpa [new] using Nat.le_of_not_lt hi)
      rw [this]; exact List.nodup_nil

/-- Claim C13, amended, on the graph built by `main`. -/
theorem adjacency_nodup_of_simple_witness :
    (∀ e ∈ [((0 : Int), (1 : Int)), (0, 2), (1, 3), (1, 4), (2, 5)],
        e.1 ∈ [(0 : Int), 1, 2, 3, 4, 5] ∧ e.2 ∈ [(0 : Int), 1, 2, 3, 4, 5]) ∧
      (∀ e ∈ [((0 : Int), (1 : Int)), (0, 2), (1, 3), (1, 4), (2, 5)], e.1 ≠ e.2) ∧
      ∃ g, addEdges (new [0, 1, 2, 3, 4, 5]) [(0, 1), (0, 2), (1, 3), (1, 4), (2, 5)] = some g ∧
        ∀ i, (g.neighbors i).Nodup :=
  ⟨by decide, by decide,
    adjacency_nodup_of_simple [0, 1, 2, 3, 4, 5] [(0, 1), (0, 2), (1, 3), (1, 4), (2, 5)]
      (by decide) (by decide) (by decide)⟩

/-! ### The simulated inorder traversal and its reference definition -/

theorem bind_eq_ok {α β : Type} (x : Except Fault α) (f : α → Except Fault β) (r : β)
    (h : (x >>= f) = Except.ok r) : ∃ a, x = Except.ok a ∧ f a = Except.ok r := by
  cases x with
  | error e => exact absurd h (by simp [bind, Except.bind])
  | ok a => exact ⟨a, rfl, h⟩

theorem getElem?_of_readAt {α : Type} (xs : List α) (i : Nat) (x : α)
    (h : readAt xs i = Except.ok x) : xs[i]? = some x := by
  unfold readAt at h
  split at h
  · rename_i y hy
    rw [hy]
    cases h
    rfl
  · exact absurd h (by simp)

theorem markVisited_eq_ok (vis vis1 : List Bool) (v : Nat) (h : markVisited vis v = Except.ok vis1) :
    vis1 = vis.set v true := by
  unfold markVisited at h
  split at h
  · cases h; rfl
  · exact absurd h (by simp)

theorem inorderSpecUtil_succ (g : Graph) (fuel v : Nat) (s : DfsState) :
    inorderSpecUtil g (fuel + 1) v s =
      (((lowerHalf (g.neighbors v)).foldlM
          (fun (st : DfsState) (n : Nat) =>
            if st.visited.getD n false then some st else inorderSpecUtil g fuel n st)
          ⟨s.visited.set v true, s.out⟩).bind fun st =>
        (upperHalf (g.neighbors v)).foldlM
          (fun (st : DfsState) (n : Nat) =>
            if st.visited.getD n false then some st else inorderSpecUtil g fuel n st)
          ⟨st.visited, st.out ++ [g.label v]⟩) :=
  rfl

/-- A loop of the source that returns is followed step by step by the loop of the
reference definition. -/
theorem visit_loop_spec (util : Nat → DfsState → Except Fault DfsState)
    (ref : Nat → DfsState → Option DfsState)
    (hu : ∀ n s r, util n s = Except.ok r → ref n s = some r) :
    ∀ (ns : List Nat) (s r : DfsState), ns.foldlM (visit util) s = Except.ok r →
      ns.foldlM (fun (st : DfsState) (n : Nat) =>
        if st.visited.getD n false then some st else ref n st) s = some r := by
  intro ns
  induction ns with
  | nil =>
    intro s r h
    simp only [List.foldlM_nil] at h ⊢
    cases h
    rfl
  | cons n rest ih =>
    intro s r h
    rw [List.foldlM_cons] at h ⊢
    obtain ⟨s1, h1, h2⟩ := bind_eq_ok _ _ _ h
    have hstep : (if s.visited.getD n false then some s else ref n s) = some s1 := by
      unfold visit at h1
      obtain ⟨b, hb, h3⟩ := bind_eq_ok _ _ _ h1
      have hget := getElem?_of_readAt _ _ _ hb
      cases b with
      | true =>
        have : s1 = s := by
          simp only [Bool.not_true] at h3
          cases h3
          rfl
        simp [hget, this]
      | false =>
        simp only [Bool.not_false, if_true] at h3
        simp [hget, hu n s s1 h3]
    rw [hstep]
    exact ih s1 r h2

/-- Whenever the scheme with the two halves of the sorted neighbour list returns,
the reference definition returns the same state. -/
theorem inorderSpecUtil_of_scheme (g : Graph) (fuel : Nat) :
    ∀ (v : Nat) (s r : DfsState), dfsScheme g lowerHalf upperHalf fuel v s = Except.ok r →
      inorderSpecUtil g fuel v s = some r := by
  induction fuel with
  | zero =>
    intro v s r h
    exact absurd h (by simp [dfsScheme])
  | succ n ih =>
    intro v s r h
    rw [dfsScheme_succ] at h
    obtain ⟨vis0, h0, h⟩ := bind_eq_ok _ _ _ h
    obtain ⟨row, hrow, h⟩ := bind_eq_ok _ _ _ h
    obtain ⟨lab, hlab, h⟩ := bind_eq_ok _ _ _ h
    obtain ⟨s1, h1, h2⟩ := bind_eq_ok _ _ _ h
    have e0 := markVisited_eq_ok _ _ _ h0
    have erow : row = g.neighbors v := by
      have := getElem?_of_readAt _ _ _ hrow
      simp [neighbors, rowAt, this]
    have hlb : lab = g.label v := by
      have := getElem?_of_readAt _ _ _ hlab
      simp [label, intAt, this]
    subst e0 erow hlb
    rw [inorderSpecUtil_succ, visit_loop_spec _ _ ih _ _ _ h1]
    exact visit_loop_spec _ _ ih _ _ _ h2

/-- Claim C15 (the simulated inorder follows the split rule).  For a graph built
by the constructor and `addEdge` calls and a known start label, `dfsInorder(start)`
returns, and its output is the output of the reference definition that follows
the words of the specification; on the example graph `dfsInorder(0)` writes
1, 3, 4, 0, 2, 5. -/
theorem dfsInorder_follows_spec :
    (∀ (nodes : List Int) (es : List (Int × Int)) (g : Graph),
      addEdges (new nodes) es = some g → ∀ start ∈ nodes,
        ∃ out, g.dfsInorder start = Except.ok out ∧ g.dfsInorderSpec start = some out) ∧
    example1.map (fun g => g.dfsInorder 0) = some (Except.ok [1, 3, 4, 0, 2, 5]) ∧
    example1.map (fun g => g.dfsInorderSpec 0) = some (some [1, 3, 4, 0, 2, 5]) := by
  refine ⟨?_, by rfl, by rfl⟩
  intro nodes es g hg start hstart
  obtain ⟨hn, hw, hs, -⟩ := built_safe nodes es g hg
  obtain ⟨tr, e, -, -⟩ := dfsInorder_trace g hw hs start (hn ▸ hstart)
  refine ⟨_, e, ?_⟩
  unfold dfsInorder at e
  rw [dfsInorderUtil_eq g hw.2.1] at e
  obtain ⟨r, hr, hout⟩ := bind_eq_ok _ _ _ e
  unfold dfsInorderSpec
  rw [inorderSpecUtil_of_scheme g _ _ _ _ hr]
  have hro : r.out = tr.map g.label := Except.ok.inj hout
  rw [← hro]
  rfl

/-- Claim C15 on the graph with a cycle, a self-loop and a repeated edge, from
the label 10. -/
theorem dfsInorder_follows_spec_witness :
    addEdges (new [10, 20, 30, 40, 50])
        [(10, 20), (20, 30), (30, 10), (20, 20), (10, 20), (40, 50)] = some example2 ∧
      (10 : Int) ∈ [(10 : Int), 20, 30, 40, 50] ∧
      ∃ out, example2.dfsInorder 10 = Except.ok out ∧ example2.dfsInorderSpec 10 = some out :=
  ⟨by decide, by decide,
    dfsInorder_follows_spec.1 [10, 20, 30, 40, 50]
      [(10, 20), (20, 30), (30, 10), (20, 20), (10, 20), (40, 50)] example2 (by decide) 10
      (by decide)⟩

end Graph
